import Mathlib

/-!
# Verification of the `ramify` incremental branch-diagram layout engine

This file gives a shallow embedding, in Lean 4, of the core of the `ramify`
library: the frontier ("columns") data model, the alignment / fork resolver
(`align`, `fork_align`, `fork_exact`, `required_width`, `column_range` from
`src/layout/ops.rs`), the diagram writer (`src/writer.rs`, specialised to
gutter width 0), and the row-generating state machine
(`Generator::try_write_next_vertex` from `src/layout.rs`), together with
theorems about them.

Modelling conventions:

* Rust `usize` is modelled as `Nat`.  Rust subtraction panics on underflow in
  debug builds; we use truncated `Nat` subtraction and carry explicit
  hypotheses (for example `start ≤ curCol`) in theorems whenever the source
  relies on the subtraction being exact.  `usize::saturating_sub` coincides
  with truncated subtraction.
* The in-place slice mutations of the Rust code become pure functions from
  lists to lists.  The "sentinel" swap dance in `Generator` /
  `Columns::substitute` is observationally a splice that replaces the entry at
  the minimal index with the children entries, and is modelled as such.
* Iteration bounded by a data-dependent condition (`make_singleton`'s
  `while !is_singleton` loop, the run-by-run loop of `align`) is given
  explicit structural fuel so that all definitions compute by kernel
  reduction.  `align`'s fuel (`cols.length`) is always sufficient; for
  `make_singleton` the fuel is a generous bound and concrete runs are checked
  to exit by reaching a singleton.
-/

namespace Ramify

/-- The abstract drawing primitives emitted by the layout operations in
`src/layout/ops.rs` (`Blank`, `Continue`, shift and fork variants, matching
the constructors used at the `write_branch` call sites there). -/
inductive Branch where
  /-- `n` columns of internal whitespace. -/
  | blank (n : Nat)
  /-- A `│` continuation. -/
  | cont
  /-- A `╭─…─╯` left shift with `extra` horizontal spacers. -/
  | shiftLeft (extra : Nat)
  /-- A `╰─…─╮` right shift with `extra` horizontal spacers. -/
  | shiftRight (extra : Nat)
  /-- A `╭┬…┬┤` left fork with `arms` interior arms. -/
  | forkLeft (arms : Nat)
  /-- A `├┬…┬╮` right fork with `arms` interior arms. -/
  | forkRight (arms : Nat)
  /-- A `╭┼╮` middle triple fork. -/
  | forkMiddle
  /-- A `╭┬…┬─…─╯` left shift-fork: `arms` arms then `shift` spacers. -/
  | shiftForkLeft (shift arms : Nat)
  /-- A `╰─…─┬…┬╮` right shift-fork: `shift` spacers then `arms` arms. -/
  | shiftForkRight (shift arms : Nat)
  deriving Repr, DecidableEq

namespace Branch

/-- `Branch::shift_left(diff)`: a left diagonal move over `diff` columns;
`diff = 0` degenerates to a continuation. -/
def shift_left (diff : Nat) : Branch :=
  if diff = 0 then .cont else .shiftLeft (diff - 1)

/-- `Branch::shift_right(diff)`: a right diagonal move over `diff` columns;
`diff = 0` degenerates to a continuation. -/
def shift_right (diff : Nat) : Branch :=
  if diff = 0 then .cont else .shiftRight (diff - 1)

/-- `Branch::fork(a, b)`: the triple fork consuming `a` columns of left slack
and `b` of right slack (`a + b = 2` at every call site): the pass-through
vertical sits at position `a` of the three glyphs. -/
def fork (a b : Nat) : Branch :=
  match a with
  | 0 => .forkRight (b - 1)
  | 1 => .forkMiddle
  | n + 2 => .forkLeft (n + 1)

/-- The number of display columns a primitive occupies at gutter width 0
(the `RoundedCorners` / `SharpCorners` styles). -/
def width : Branch → Nat
  | .blank n => n
  | .cont => 1
  | .shiftLeft e | .shiftRight e => 2 + e
  | .forkLeft a | .forkRight a => 2 + a
  | .forkMiddle => 3
  | .shiftForkLeft s a | .shiftForkRight s a => 2 + s + a

/-- The glyph text of a primitive in the rounded-corners, gutter-0 style,
as fixed by the behavioural tests in `src/layout/ops/tests.rs`. -/
def render : Branch → List Char
  | .blank n => List.replicate n ' '
  | .cont => ['│']
  | .shiftLeft e => '╭' :: List.replicate e '─' ++ ['╯']
  | .shiftRight e => '╰' :: List.replicate e '─' ++ ['╮']
  | .forkLeft a => '╭' :: List.replicate a '┬' ++ ['┤']
  | .forkRight a => '├' :: List.replicate a '┬' ++ ['╮']
  | .forkMiddle => ['╭', '┼', '╮']
  | .shiftForkLeft s a => '╭' :: List.replicate a '┬' ++ List.replicate s '─' ++ ['╯']
  | .shiftForkRight s a => '╰' :: List.replicate s '─' ++ List.replicate a '┬' ++ ['╮']

theorem render_length (b : Branch) : b.render.length = b.width := by
  cases b <;> simp [render, width] <;> omega

end Branch

/-- The state of the `DiagramWriter` (`src/writer.rs`) at gutter width 0:
completed lines, the current partial line, the per-line character count and
the queued (not yet flushed) whitespace. -/
structure DW where
  lines : List (List Char)
  cur : List Char
  lineWidth : Nat
  queued : Nat
  deriving Repr, DecidableEq

namespace DW

/-- A fresh writer, as built at the top of `try_write_next_vertex`. -/
def new : DW := ⟨[], [], 0, 0⟩

/-- `DiagramWriter::queue_blank`. -/
def queueBlank (w : DW) (n : Nat) : DW :=
  { w with queued := w.queued + n }

/-- `resolve_whitespace` plus the append of a branch's glyphs
(`DiagramWriter::write_branch` at gutter width 0).  Blank runs are queued
rather than written, and flushed before the next non-blank primitive, so a
trailing blank run is never emitted. -/
def writeBranch (w : DW) (b : Branch) : DW :=
  match b with
  | .blank n => w.queueBlank n
  | b =>
    { w with
      cur := w.cur ++ List.replicate w.queued ' ' ++ b.render
      lineWidth := w.lineWidth + b.width + w.queued
      queued := 0 }

/-- `write_vertex_marker`: a single display-width marker glyph. -/
def writeMarker (w : DW) (c : Char) : DW :=
  { w with
    cur := w.cur ++ List.replicate w.queued ' ' ++ [c]
    lineWidth := w.lineWidth + 1 + w.queued
    queued := 0 }

/-- `DiagramWriter::write_newline`. -/
def writeNewline (w : DW) : DW :=
  ⟨w.lines ++ [w.cur], [], 0, 0⟩

/-- `DiagramWriter::write_annotation_line`: right-pad the structural part of
the line to `bound` columns, emit `padding` margin spaces, the annotation
text, and terminate the line. -/
def writeAnnotationLine (w : DW) (line : List Char) (bound padding : Nat) : DW :=
  ⟨w.lines ++ [w.cur ++ List.replicate (bound - w.lineWidth) ' '
      ++ List.replicate padding ' ' ++ line], [], 0, 0⟩

end DW

section Ops

variable {V : Type}

/-- The column value of entry `i` (`cols[i].1` in the Rust source); `0` when
out of range (the source asserts `i < cols.len()`, and theorems carry that
hypothesis). -/
def sndAt (cols : List (V × Nat)) (i : Nat) : Nat :=
  match cols[i]? with
  | some p => p.2
  | none => 0

/-- The downward scan of `column_range`: the largest `l ≤ i` such that all
entries in `[l, i]` have column `c`. -/
def crStart (cols : List (V × Nat)) (c : Nat) : Nat → Nat
  | 0 => 0
  | i + 1 => if (cols[i]?.map Prod.snd) = some c then crStart cols c i else i + 1

/-- The upward scan of `column_range`, with structural fuel (the source's
`while end < cols.len() && cols[end].1 == c` loop). -/
def crEnd (cols : List (V × Nat)) (c : Nat) : Nat → Nat → Nat
  | 0, e => e
  | f + 1, e => if (cols[e]?.map Prod.snd) = some c then crEnd cols c f (e + 1) else e

/-- `ops::column_range`: the contiguous index range `[l, r)` of entries
sharing entry `idx`'s column. -/
def columnRange (cols : List (V × Nat)) (idx : Nat) : Nat × Nat :=
  let c := sndAt cols idx
  (crStart cols c idx, crEnd cols c cols.length (idx + 1))

/-- The run-counting loop of `ops::required_width`: the number of maximal
segments of equal adjacent column values. -/
def countRuns : List Nat → Nat
  | [] => 0
  | [_] => 1
  | a :: b :: r => (if a = b then 0 else 1) + countRuns (b :: r)

/-- `ops::required_width`: the number of column runs plus the extra columns
needed to fork the block of `minIndex`. -/
def requiredWidth (cols : List (V × Nat)) (minIndex : Nat) : Nat :=
  let numCols := countRuns (cols.map Prod.snd)
  let (l, r) := columnRange cols minIndex
  let extraForkSpace :=
    if l + 1 = r then 0
    else if minIndex = l ∨ minIndex + 1 = r then 1
    else 2
  numCols + extraForkSpace

/-- The loop body of `ops::align`, processing one maximal run of equal
columns per step; `fuel` is structural fuel (`cols.length` suffices since
every step consumes at least the head). -/
def alignGo (w : DW) (cols : List (V × Nat)) (start : Nat) (endB : Option Nat) :
    Nat → DW × List (V × Nat) × Nat
  | 0 => (w, cols, start)
  | fuel + 1 =>
    match cols with
    | [] => (w, [], start)
    | (v, c) :: rest =>
      let run := rest.takeWhile (fun p => p.2 = c)
      let rest' := rest.dropWhile (fun p => p.2 = c)
      if start ≤ c then
        let diff := c - start
        let w := w.writeBranch (Branch.shift_left diff)
        let newRun :=
          if 1 ≤ diff then ((v, c) :: run).map (fun p => (p.1, c - diff))
          else (v, c) :: run
        let rec1 := alignGo w rest' (c + 1) endB fuel
        (rec1.1, newRun ++ rec1.2.1, rec1.2.2)
      else
        let required := start - c
        let allowed :=
          match rest' with
          | (_, nc) :: _ => min required (nc - c - 1)
          | [] =>
            match endB with
            | some e => min required (e - (c + 1))
            | none => required
        let newCol := c + allowed
        let w := w.writeBranch (Branch.shift_right allowed)
        let start1 := if allowed < required then start + 1 else start
        let start2 := max start1 (newCol + 1)
        let rec1 := alignGo w rest' start2 endB fuel
        (rec1.1, ((v, c) :: run).map (fun p => (p.1, newCol)) ++ rec1.2.1, rec1.2.2)

/-- `ops::align`: pull each column run toward the running target offset
within `[start, endB)`, emitting shift primitives; returns the writer, the
renumbered columns and the next free offset. -/
def align (w : DW) (cols : List (V × Nat)) (start : Nat) (endB : Option Nat) :
    DW × List (V × Nat) × Nat :=
  alignGo w cols start endB cols.length

/-- Overwrite the column value of entry `i`. -/
def setCol (cols : List (V × Nat)) (i : Nat) (c : Nat) : List (V × Nat) :=
  cols.take i ++
    (match cols.drop i with
     | [] => []
     | x :: r => (x.1, c) :: r)

/-- Fork-right column update when the minimal entry leads its block: all
later entries move one column right. -/
def colsBumpTail (cols : List (V × Nat)) : List (V × Nat) :=
  match cols with
  | [] => []
  | x :: rest => x :: rest.map (fun p => (p.1, p.2 + 1))

/-- All entries move one column right. -/
def colsBumpAll (cols : List (V × Nat)) : List (V × Nat) :=
  cols.map (fun p => (p.1, p.2 + 1))

/-- All entries move `s` columns left. -/
def colsSubAll (cols : List (V × Nat)) (s : Nat) : List (V × Nat) :=
  cols.map (fun p => (p.1, p.2 - s))

/-- Fork-left column update when the minimal entry leads its block: the head
lands `s` columns left, the rest land one column right of it. -/
def colsForkLeftHead (cols : List (V × Nat)) (curCol s : Nat) : List (V × Nat) :=
  match cols with
  | [] => []
  | x :: rest => (x.1, curCol - s) :: rest.map (fun p => (p.1, p.2 + 1 - s))

/-- Fork-left column update when the minimal entry (at `m`) ends its block:
the entries before it move `s` columns left, it lands one column right of
them. -/
def colsForkLeftLast (cols : List (V × Nat)) (m s : Nat) : List (V × Nat) :=
  (cols.take m).map (fun p => (p.1, p.2 - s)) ++
    (match cols.drop m with
     | [] => []
     | x :: rest => (x.1, x.2 + 1 - s) :: rest)

/-- Interior-fork column update: prefix `s` left, the minimal entry one
right of it, the suffix one right of that. -/
def colsForkInterior (cols : List (V × Nat)) (m curCol s : Nat) : List (V × Nat) :=
  (cols.take m).map (fun p => (p.1, p.2 - s)) ++
    (match cols.drop m with
     | [] => []
     | x :: rest => (x.1, curCol - s + 1) :: rest.map (fun p => (p.1, p.2 - s + 2)))

/-- `ops::fork_exact` with `EXTRA = 2`: resolve the fork on a single column
block, in place, branching on block position (boundary / interior) and the
slack available within `[start, endB)`.  `FORK = false` only reserves the
space the eventual fork needs. -/
def forkExact (w : DW) (cols : List (V × Nat)) (minIndex start : Nat)
    (endB : Option Nat) (FORK : Bool) : DW × List (V × Nat) × Nat :=
  let curCol := sndAt cols minIndex
  if minIndex = 0 ∨ minIndex + 1 = cols.length then
    -- boundary fork
    let spaceOnLeft := curCol - start
    if spaceOnLeft = 0 then
      let canForkRight :=
        match endB with
        | some bd => decide (curCol + 1 < bd)
        | none => true
      let (w, cols') :=
        if canForkRight then
          if FORK then
            (w.writeBranch (.forkRight 0),
              if minIndex = 0 then colsBumpTail cols
              else setCol cols minIndex (curCol + 1))
          else if minIndex = 0 then
            ((w.writeBranch .cont).writeBranch (.blank 1), cols)
          else
            (w.writeBranch (.shiftForkRight 0 0), colsBumpAll cols)
        else
          (w.writeBranch .cont, cols)
      (w, cols', curCol + 2)
    else
      let (w, cols') :=
        if FORK then
          let w :=
            if spaceOnLeft = 1 then w.writeBranch (.forkLeft 0)
            else w.writeBranch (.shiftForkLeft (spaceOnLeft - 2) 1)
          (w,
            if minIndex = 0 then colsForkLeftHead cols curCol spaceOnLeft
            else colsForkLeftLast cols minIndex spaceOnLeft)
        else if minIndex = 0 then
          (w.writeBranch (.shiftForkLeft (spaceOnLeft - 1) 0),
            colsSubAll cols spaceOnLeft)
        else if spaceOnLeft = 1 then
          ((w.writeBranch (.blank 1)).writeBranch .cont, cols)
        else
          ((w.writeBranch (.blank 1)).writeBranch (.shiftForkLeft (spaceOnLeft - 2) 0),
            colsSubAll cols (spaceOnLeft - 1))
      (w, cols', curCol + 1)
  else
    -- interior fork, EXTRA = 2
    let spaceOnLeft := curCol - start
    let spaceOnRight :=
      match endB with
      | some bd => bd - (curCol + 1)
      | none => 2
    if 2 ≤ spaceOnLeft + spaceOnRight then
      if FORK then
        let (w, off) :=
          if 2 < spaceOnLeft then
            (w.writeBranch (.shiftForkLeft (spaceOnLeft - 2 - 1) 2), curCol + 1)
          else
            (w.writeBranch (Branch.fork spaceOnLeft (2 - spaceOnLeft)),
              curCol + (2 - spaceOnLeft) + 1)
        (w, colsForkInterior cols minIndex curCol spaceOnLeft, off)
      else if spaceOnLeft = 0 then
        ((w.writeBranch (.shiftForkRight 0 0)).writeBranch (.blank 1),
          colsBumpAll cols, curCol + 3)
      else if spaceOnLeft = 1 then
        (((w.writeBranch (.blank 1)).writeBranch .cont).writeBranch (.blank 1),
          cols, curCol + 2)
      else
        ((w.writeBranch (.blank 1)).writeBranch (.shiftForkLeft (spaceOnLeft - 2) 0),
          colsSubAll cols (spaceOnLeft - 1), curCol + 1)
    else
      let w := if 0 < spaceOnLeft then w.writeBranch (.blank 1) else w
      let w := w.writeBranch .cont
      let w := if 0 < spaceOnRight then w.writeBranch (.blank 1) else w
      (w, cols, curCol + 1 + 2 - spaceOnLeft)

/-- `ops::fork_align`: if the block of `minIndex` is a singleton, delegate to
`align`; otherwise align the segment before the block, resolve the fork with
`forkExact` bounded by the next column (or the end bound), then align the
segment after, chaining offsets. -/
def forkAlign (w : DW) (cols : List (V × Nat)) (minIndex start : Nat)
    (endB : Option Nat) (FORK : Bool) : DW × List (V × Nat) × Nat :=
  let l := (columnRange cols minIndex).1
  let r := (columnRange cols minIndex).2
  if l + 1 = r then align w cols start endB
  else
    let p := cols.take l
    let mid := (cols.drop l).take (r - l)
    let s := cols.drop r
    let a1 := align w p start none
    let forkLimit :=
      match s with
      | x :: _ => some x.2
      | [] => endB
    let a2 := forkExact a1.1 mid (minIndex - l) a1.2.2 forkLimit FORK
    let a3 := align a2.1 s a2.2.2 endB
    (a3.1, a1.2.1 ++ a2.2.1 ++ a3.2.1, a3.2.2)

/-- `ops::marker`: emit blanks up to the (immovable) marker column, then the
marker glyph; returns the writer, the physical line width so far (`actual`)
and the propagated offset. -/
def markerOp (w : DW) (m : Char) (offset markerCol : Nat) : DW × Nat × Nat :=
  if offset ≤ markerCol then
    let w := (w.writeBranch (.blank (markerCol - offset))).writeMarker m
    (w, w.lineWidth, markerCol + 1)
  else
    let w := w.writeMarker m
    (w, w.lineWidth, max (markerCol + 1) (offset + 1))

/-- `ops::mark_and_prepare`: emit the marker and return an offset enlarged by
the fork space the block of `minIndex` will need. -/
def markAndPrepare (w : DW) (cols : List (V × Nat)) (m : Char)
    (offset minIndex : Nat) : DW × Nat × Nat :=
  let (l, r) := columnRange cols minIndex
  let col := sndAt cols minIndex
  let w := (w.writeBranch (.blank (col - offset))).writeMarker m
  let requiredForkSpace :=
    if l + 1 = r then 1
    else if minIndex = l ∨ minIndex + 1 = r then 2
    else 3
  (w, w.lineWidth, max (col + 1) (offset + requiredForkSpace))

end Ops

/-! ## Trees and the collaborator

The engine is generic over the collaborator (`Ramify` / `TryRamify`); claims
about full diagram generation are settled against its canonical instance from
the repository's test suites: a recursive tree whose vertex data supplies the
key, the marker character and the annotation lines.  (A mutual inductive is
used instead of a nested `List Tree` so that all recursions are structural
and compute by kernel reduction.) -/

mutual
/-- A vertex of the collaborator's tree: key (drawing order), marker glyph,
annotation lines, children in iteration order. -/
inductive Tree where
  | node (key : Nat) (marker : Char) (annot : List (List Char)) (children : TreeList)
  deriving DecidableEq
/-- A list of sibling subtrees. -/
inductive TreeList where
  | nil
  | cons (t : Tree) (ts : TreeList)
  deriving DecidableEq
end

namespace TreeList

/-- View a `TreeList` as a `List`. -/
def toList : TreeList → List Tree
  | .nil => []
  | .cons t ts => t :: ts.toList

end TreeList

namespace Tree

/-- `Ramify::get_key`. -/
def key : Tree → Nat
  | .node k _ _ _ => k

/-- `Ramify::marker`. -/
def markerOf : Tree → Char
  | .node _ m _ _ => m

/-- `Ramify::annotation`, as the buffered list of lines. -/
def annot : Tree → List (List Char)
  | .node _ _ a _ => a

/-- `Ramify::children`, in iteration order. -/
def children : Tree → TreeList
  | .node _ _ _ cs => cs

/-- A childless vertex. -/
def leaf (k : Nat) (m : Char) : Tree := .node k m [] .nil

end Tree

mutual
/-- The number of vertices reachable from a root. -/
def Tree.size : Tree → Nat
  | .node _ _ _ cs => 1 + TreeList.sizeF cs
/-- Total vertex count of a forest. -/
def TreeList.sizeF : TreeList → Nat
  | .nil => 0
  | .cons t ts => t.size + ts.sizeF
end

mutual
/-- All reachable vertices of a tree (each as the subtree it roots), root first. -/
def Tree.subtrees : Tree → List Tree
  | .node k m a cs => .node k m a cs :: TreeList.subtreesF cs
/-- All reachable vertices of a forest. -/
def TreeList.subtreesF : TreeList → List Tree
  | .nil => []
  | .cons t ts => t.subtrees ++ ts.subtreesF
end

/-! ## The generator state machine (`src/layout.rs`) -/

/-- The runtime configuration (`Config`, `src/writer.rs`), minus the
compile-time style, which is fixed to rounded corners at gutter width 0. -/
structure GenCfg where
  rowPadding : Nat
  annotationMargin : Nat
  widthSlack : Bool
  minDiagramWidth : Nat
  deriving Repr, DecidableEq

/-- `Config::new()`: the default configuration. -/
def GenCfg.default : GenCfg := ⟨0, 1, false, 0⟩

/-- `Config::normalize_diagram_width` /
`Generator::compute_diagram_width`: apply slack and the width floor. -/
def GenCfg.normalize (cfg : GenCfg) (width : Nat) : Nat :=
  max (width + (if cfg.widthSlack then 1 else 0)) cfg.minDiagramWidth

/-- The state of a `Generator`: the frontier of active vertices with their
columns, the cached minimal index (`None` iff the frontier is empty), and the
configuration.  The reusable annotation buffer is omitted: it is cleared and
refilled on every call and never read across calls. -/
structure Gen where
  columns : List (Tree × Nat)
  minIndex : Option Nat
  config : GenCfg
  deriving DecidableEq

/-- `Generator::init`: a frontier holding exactly `(root, 0)`. -/
def Gen.init (root : Tree) (cfg : GenCfg) : Gen :=
  ⟨[(root, 0)], some 0, cfg⟩

/-- The accumulator loop of `min_by_key` over the enumerated frontier:
a strictly smaller key replaces the current best, so the first of equally
minimal keys wins. -/
def computeMinIdxGo : List (Tree × Nat) → Nat → Option (Nat × Nat) → Option (Nat × Nat)
  | [], _, acc => acc
  | (t, _) :: rest, i, acc =>
    computeMinIdxGo rest (i + 1)
      (match acc with
       | none => some (i, t.key)
       | some (j, k) => if t.key < k then some (i, t.key) else some (j, k))

/-- `Columns::min_index` / the `min_by_key` recomputation in
`try_write_next_vertex`: the index of the active vertex with minimal key. -/
def computeMinIdx (cols : List (Tree × Nat)) : Option Nat :=
  (computeMinIdxGo cols 0 none).map Prod.fst

/-- `Generator::is_singleton`: entry `idx`'s edge is shared with no other
entry. -/
def isSingleton (cols : List (Tree × Nat)) (idx : Nat) : Bool :=
  (columnRange cols idx).1 + 1 = (columnRange cols idx).2

/-- `Generator::try_make_singleton`: one `fork_align` row (performing the
fork) followed by a newline. -/
def tryMakeSingleton (w : DW) (cols : List (Tree × Nat)) (idx dw : Nat) :
    DW × List (Tree × Nat) :=
  let a := forkAlign w cols idx 0 (some dw) true
  (a.1.writeNewline, a.2.1)

/-- `Generator::make_singleton`: repeat `try_make_singleton` until the index
is a singleton.  The Rust loop has no fuel; here structural fuel makes the
definition computable, and concrete runs are checked to exit by reaching a
singleton rather than by exhausting fuel. -/
def makeSingleton : Nat → DW → List (Tree × Nat) → Nat → Nat → DW × List (Tree × Nat)
  | 0, w, cols, _, _ => (w, cols)
  | fuel + 1, w, cols, idx, dw =>
    if isSingleton cols idx then (w, cols)
    else
      let a := tryMakeSingleton w cols idx dw
      makeSingleton fuel a.1 a.2 idx dw

/-- The `for _ in 0..row_padding` loop writing padding rows. -/
def paddingRows : Nat → DW → List (Tree × Nat) → Nat → Nat → DW × List (Tree × Nat)
  | 0, w, cols, _, _ => (w, cols)
  | n + 1, w, cols, idx, dw =>
    let a := tryMakeSingleton w cols idx dw
    paddingRows n a.1 a.2 idx dw

/-- A generous fuel bound handed to `makeSingleton`. -/
def stepFuel (cols : List (Tree × Nat)) (dw : Nat) : Nat :=
  (dw + 2) * (cols.length + 2) + 4

/-- The marker-row phase of `try_write_next_vertex` (the three-way case split
on the next minimal index relative to the substituted block `[l, r)`),
identical to `Columns::write_vertex_row`. -/
def writeVertexRow (w : DW) (cols : List (Tree × Nat)) (nextMin l r : Nat)
    (delay : Bool) (col : Nat) (m : Char) (dw : Nat) : DW × List (Tree × Nat) :=
  if nextMin < l then
    -- the next minimal index lands before the marker
    let a1 := forkAlign w (cols.take l) nextMin 0 (some col) (!delay)
    let mk := markerOp a1.1 m a1.2.2 col
    if r < cols.length then
      let w2 := mk.1.queueBlank (min mk.2.2 (sndAt cols r) - mk.2.1)
      let a2 := align w2 (cols.drop r) mk.2.2 (some dw)
      (a2.1, a1.2.1 ++ (cols.drop l).take (r - l) ++ a2.2.1)
    else (mk.1, a1.2.1 ++ cols.drop l)
  else if nextMin < r then
    -- the next minimal index is a child of the marker
    let a1 := align w (cols.take l) 0 none
    let mk := markAndPrepare a1.1 (a1.2.1 ++ cols.drop l) m a1.2.2 nextMin
    if r < cols.length then
      let w2 := mk.1.queueBlank (min mk.2.2 (sndAt cols r) - mk.2.1)
      let a2 := align w2 (cols.drop r) mk.2.2 (some dw)
      (a2.1, a1.2.1 ++ (cols.drop l).take (r - l) ++ a2.2.1)
    else (mk.1, a1.2.1 ++ cols.drop l)
  else
    -- the next minimal index follows the marker
    let a1 := align w (cols.take l) 0 none
    let mk := markerOp a1.1 m a1.2.2 col
    if r < cols.length then
      let w2 := mk.1.queueBlank (min mk.2.2 (sndAt cols r) - mk.2.1)
      let a2 := forkAlign w2 (cols.drop r) (nextMin - r) mk.2.2 (some dw) (!delay)
      (a2.1, a1.2.1 ++ (cols.drop l).take (r - l) ++ a2.2.1)
    else (mk.1, a1.2.1 ++ cols.drop l)

/-- The trailing-annotation loop: space is prepared for each line but the
fork is deferred (`FORK = false`) until the last line. -/
def annotLoop (w : DW) (cols : List (Tree × Nat)) (nextMin dw alignment margin : Nat) :
    List (List Char) → DW × List (Tree × Nat)
  | [] => (w, cols)
  | [last] =>
    let a := forkAlign w cols nextMin 0 (some dw) true
    (a.1.writeAnnotationLine last alignment margin, a.2.1)
  | ln :: rest =>
    let a := forkAlign w cols nextMin 0 (some dw) false
    annotLoop (a.1.writeAnnotationLine ln alignment margin) a.2.1 nextMin dw alignment margin rest

/-- `WriteVertexError`: an I/O failure or a failed children computation. -/
inductive WErr where
  | io
  | tryChildrenFailed
  deriving Repr, DecidableEq

/-- Replace the vertex of entry `i` (restore-with-replacement keeps the
column and the position: the sentinel swap dance of the source restores the
exact slot). -/
def setVtx (cols : List (Tree × Nat)) (i : Nat) (repl : Tree) : List (Tree × Nat) :=
  cols.take i ++
    (match cols.drop i with
     | [] => []
     | (_, c) :: rest => (repl, c) :: rest)

/-- The success path of one call: the substitution of the minimal entry by
its children, the marker row, annotation and padding rows, and the
`make_singleton` preparation; the returned flag is the call's `Ok(_)` value
(false when the drawn vertex was the last). -/
def stepSuccess (g : Gen) (minIdx : Nat) (vtx : Tree) (col : Nat) :
    List (List Char) × Gen × Bool :=
  let children := vtx.children.toList
  let cols1 := g.columns.take minIdx ++ children.map (fun c => (c, col)) ++
    g.columns.drop (minIdx + 1)
  let l := minIdx
  let r := minIdx + children.length
  match computeMinIdx cols1 with
  | none =>
    -- no vertices remain: write the final marker and annotation
    let mk := markerOp DW.new vtx.markerOf 0 col
    let dw := g.config.normalize mk.2.2
    let w :=
      match vtx.annot with
      | [] => mk.1.writeNewline
      | lines => lines.foldl
          (fun wa ln => wa.writeAnnotationLine ln dw g.config.annotationMargin) mk.1
    (w.lines, ⟨cols1, none, g.config⟩, false)
  | some nextMin =>
    let dw := g.config.normalize (requiredWidth cols1 nextMin)
    let delay := decide (0 < g.config.rowPadding)
    let a1 := writeVertexRow DW.new cols1 nextMin l r delay col vtx.markerOf dw
    let alignment := max dw a1.1.lineWidth
    let a2 :=
      match vtx.annot with
      | [] => (a1.1.writeNewline, a1.2)
      | first :: tail =>
        let w := a1.1.writeAnnotationLine first alignment g.config.annotationMargin
        annotLoop w a1.2 nextMin dw alignment g.config.annotationMargin tail
    let a3 := paddingRows g.config.rowPadding a2.1 a2.2 nextMin dw
    let a4 := makeSingleton (stepFuel a3.2 dw) a3.1 a3.2 nextMin dw
    (a4.1.lines, ⟨a4.2, some nextMin, g.config⟩, true)

/-- The failure path of one call (`handle_no_children`): restore the frontier
with the replacement in the failed slot, recompute the minimal index and
prepare it with `make_singleton`. -/
def stepFailure (g : Gen) (minIdx : Nat) (repl : Tree) : List (List Char) × Gen :=
  let cols1 := setVtx g.columns minIdx repl
  match computeMinIdx cols1 with
  | none => ([], ⟨cols1, none, g.config⟩)
  | some nm =>
    let dw := g.config.normalize (requiredWidth cols1 nm)
    let a := makeSingleton (stepFuel cols1 dw) DW.new cols1 nm dw
    (a.1.lines, ⟨a.2, some nm, g.config⟩)

/-- One call to `Generator::try_write_next_vertex`.  The outcome of the
collaborator's `try_children` call for this step is passed explicitly:
`none` means success (the children are read from the tree, as in the blanket
`TryRamify` implementation over `Ramify`), `some repl` means failure with
replacement vertex `repl` (the `handle_no_children` path).  Returns the lines
written by this call, the new state, and the result. -/
def tryStep (oracle : Option Tree) (g : Gen) : List (List Char) × Gen × Except WErr Bool :=
  match g.minIndex with
  | none => ([], g, .ok false)
  | some minIdx =>
    match g.columns[minIdx]? with
    | none => ([], g, .ok false)
    | some (vtx, col) =>
      match oracle with
      | some repl =>
        let a := stepFailure g minIdx repl
        (a.1, a.2, .error .tryChildrenFailed)
      | none =>
        let a := stepSuccess g minIdx vtx col
        (a.1, a.2.1, .ok a.2.2)

/-- `Generator::write_next_vertex`: the infallible operation, driven through
the blanket `TryRamify` implementation whose `try_children` always returns
`Ok`. -/
def writeNextVertex (g : Gen) : List (List Char) × Gen × Except WErr Bool :=
  tryStep none g

/-- Run a schedule of calls (each entry the `try_children` outcome for that
call) and concatenate all written lines. -/
def runCalls : List (Option Tree) → Gen → List (List Char)
  | [], _ => []
  | o :: rest, g =>
    let a := tryStep o g
    a.1 ++ runCalls rest a.2.1

/-- The state after `k` successful-mode calls. -/
def genSeq (g : Gen) : Nat → Gen
  | 0 => g
  | k + 1 => (tryStep none (genSeq g k)).2.1

/-- Repeatedly call the row-writing operation until it returns false
(`size t` calls suffice and the last returns false) and collect all lines,
as strings. -/
def fullRun (t : Tree) (cfg : GenCfg) : List String :=
  (runCalls (List.replicate t.size none) (Gen.init t cfg)).map List.asString

/-! ## The style renderer of `src/writer/branch.rs` -/

/-- The `Branch` enum of `src/writer/branch.rs` (the abstract drawing
primitives of the style-renderer contract). -/
inductive BranchW where
  | shiftLeft (shift : Nat)
  | cont
  | shiftRight (shift : Nat)
  | forkDoubleShiftLeft (shift : Nat)
  | forkDoubleLeft
  | forkDoubleRight
  | forkDoubleShiftRight (shift : Nat)
  | forkTripleShiftLeft (shift : Nat)
  | forkTripleLeft
  | forkTripleMiddle
  | forkTripleRight
  | forkTripleShiftRight (shift : Nat)
  deriving Repr, DecidableEq

namespace BranchW

/-- `Branch::width_narrow`. -/
def widthNarrow : BranchW → Nat
  | .cont => 1
  | .shiftLeft shift | .shiftRight shift => 2 + shift
  | .forkDoubleLeft | .forkDoubleRight => 2
  | .forkDoubleShiftLeft shift | .forkDoubleShiftRight shift => 3 + shift
  | .forkTripleShiftLeft shift | .forkTripleShiftRight shift => 4 + shift
  | .forkTripleLeft | .forkTripleMiddle | .forkTripleRight => 3

/-- `Branch::width_wide`. -/
def widthWide : BranchW → Nat
  | .cont => 1
  | .shiftLeft shift | .shiftRight shift => 3 + 2 * shift
  | .forkDoubleLeft | .forkDoubleRight => 3
  | .forkDoubleShiftLeft shift | .forkDoubleShiftRight shift => 5 + 2 * shift
  | .forkTripleShiftLeft shift | .forkTripleShiftRight shift => 7 + 2 * shift
  | .forkTripleLeft | .forkTripleMiddle | .forkTripleRight => 3 + 2

end BranchW

/-- A ten-glyph style table, in the order of the `branch_writer!` macro:
north-south, east-west, south-west, south-east, north-west, north-east,
`┤`, `├`, `┬`, `┼`. -/
structure Charset where
  ns : Char
  ew : Char
  sw : Char
  se : Char
  nw : Char
  ne : Char
  nsw : Char
  nse : Char
  sew : Char
  nsew : Char
  deriving Repr, DecidableEq

/-- The text produced by the `WriteBranch` implementation that
`__branch_writer_impl` generates for a given glyph table: `ws` fill
characters, then the glyph sequence of the requested primitive.  In narrow
mode (`wide = false`) the inter-glyph gutter is empty and the shift fill
count is `shift`; in wide mode the gutter is one `ew` glyph and the fill
count is `2 * shift + 1`. -/
def renderW (cs : Charset) (wide : Bool) (ws : Nat) (b : BranchW) : List Char :=
  let g : List Char := if wide then [cs.ew] else []
  let fill : Nat → List Char := fun shift =>
    List.replicate ((if wide then 2 else 1) * shift + (if wide then 1 else 0)) cs.ew
  let body : List Char :=
    match b with
    | .shiftLeft shift => cs.se :: fill shift ++ [cs.nw]
    | .cont => [cs.ns]
    | .shiftRight shift => cs.ne :: fill shift ++ [cs.sw]
    | .forkDoubleShiftLeft shift => cs.se :: g ++ [cs.sew] ++ fill shift ++ [cs.nw]
    | .forkDoubleLeft => cs.se :: g ++ [cs.nsw]
    | .forkDoubleRight => cs.nse :: g ++ [cs.sw]
    | .forkDoubleShiftRight shift => cs.nw :: fill shift ++ [cs.sew] ++ g ++ [cs.sw]
    | .forkTripleShiftLeft shift =>
      cs.se :: g ++ [cs.sew] ++ g ++ [cs.sew] ++ fill shift ++ [cs.nw]
    | .forkTripleLeft => cs.se :: g ++ [cs.sew] ++ g ++ [cs.nsw]
    | .forkTripleMiddle => cs.se :: g ++ [cs.nsew] ++ g ++ [cs.sw]
    | .forkTripleRight => cs.nse :: g ++ [cs.sew] ++ g ++ [cs.sw]
    | .forkTripleShiftRight shift =>
      cs.ne :: fill shift ++ [cs.sew] ++ g ++ [cs.sew] ++ g ++ [cs.sw]
  List.replicate ws ' ' ++ body

/-- The `RoundedCorners` glyph table. -/
def roundedCharset : Charset := ⟨'│', '─', '╮', '╭', '╯', '╰', '┤', '├', '┬', '┼'⟩

/-- The `SharpCorners` glyph table. -/
def sharpCharset : Charset := ⟨'│', '─', '┐', '┌', '┘', '└', '┤', '├', '┬', '┼'⟩

/-- The `DoubledLines` glyph table. -/
def doubledCharset : Charset := ⟨'║', '═', '╗', '╔', '╝', '╚', '╣', '╠', '╦', '╬'⟩

/-- The five built-in styles of `src/writer.rs`, each a glyph table plus its
gutter width (`0` narrow, `1` wide). -/
def builtinStyles : List (Charset × Bool) :=
  [(roundedCharset, false), (sharpCharset, false),
   (roundedCharset, true), (sharpCharset, true), (doubledCharset, true)]

/-! ## Claim-specific inputs and predicates -/

/-- The golden-scenario tree: root `0` with leaf children `1, 2, 3` iterated
in that order, no annotations. -/
def goldenTree : Tree :=
  .node 0 '0' [] (.cons (Tree.leaf 1 '1') (.cons (Tree.leaf 2 '2')
    (.cons (Tree.leaf 3 '3') .nil)))

/-- The entry invariant of the generator at call boundaries: the cached
minimal index is the computed one, and its column block is a singleton
(established by `init` — the root is alone — and by the `make_singleton`
loop that ends every completed call). -/
def entryInvB (g : Gen) : Bool :=
  g.minIndex = computeMinIdx g.columns &&
    (match g.minIndex with
     | some i => isSingleton g.columns i
     | none => true)

/-- The frontier's vertex sequence, forgetting columns. -/
def vtxList (g : Gen) : List Tree := g.columns.map Prod.fst

/-- The vertex that a call in state `g` would draw (and whose children
computation it would invoke): the cached minimal entry. -/
def drawnAt (g : Gen) : Option Tree :=
  match g.minIndex with
  | none => none
  | some i => (g.columns[i]?).map Prod.fst

/-- The vertices drawn by the first `n` calls starting from `Gen.init t cfg`. -/
def drawnUpTo (t : Tree) (cfg : GenCfg) (n : Nat) : List Tree :=
  (List.range n).filterMap (fun k => drawnAt (genSeq (Gen.init t cfg) k))

/-- Total number of vertices reachable from the frontier. -/
def frontierSize (cols : List (Tree × Nat)) : Nat :=
  (cols.map (fun p => p.1.size)).sum

/-- Total vertex count of a list of trees. -/
def forestSizeL (l : List Tree) : Nat := (l.map Tree.size).sum

/-- All vertices reachable from a list of trees. -/
def forestSubtrees (l : List Tree) : List Tree := (l.map Tree.subtrees).flatten

/-- Sortedness of a column list: column indices are non-decreasing. -/
def ColsSorted {V : Type} (cols : List (V × Nat)) : Prop :=
  List.Pairwise (fun a b : V × Nat => a.2 ≤ b.2) cols

instance {V : Type} (cols : List (V × Nat)) : Decidable (ColsSorted cols) := by
  unfold ColsSorted
  infer_instance

/-- The number of distinct column values of a frontier (the spec's "column
blocks" count, stated through deduplication). -/
def distinctCols {V : Type} (cols : List (V × Nat)) : Nat :=
  (cols.map Prod.snd).dedup.length

/-- The `annotation_style` tree of `src/layout/tests/config.rs` (root `0`
with children `7 1 2 5 4 8`, `1 → 3`, `2 → 6`, no annotations), used to
check the embedding against the repository's golden diagram. -/
def exStyleTree : Tree :=
  .node 0 '0' []
    (.cons (Tree.leaf 7 '7')
      (.cons (.node 1 '1' [] (.cons (Tree.leaf 3 '3') .nil))
        (.cons (.node 2 '2' [] (.cons (Tree.leaf 6 '6') .nil))
          (.cons (Tree.leaf 5 '5')
            (.cons (Tree.leaf 4 '4')
              (.cons (Tree.leaf 8 '8') .nil))))))

/-! # Theorems -/

/-- The embedding reproduces the repository's own golden diagram for the
`annotation_style` test of `src/layout/tests/config.rs` (rounded corners,
default configuration, no annotations). -/
theorem model_reproduces_annotation_style_golden :
    fullRun exStyleTree GenCfg.default =
      ["0", "├┬╮", "│1├╮", "││2│", "│3││", "│╭╯│", "││╭┼╮", "│││4│",
       "││5╭╯", "│6╭╯", "7╭╯", " 8"] := by
  decide

/-! ## C1 — the golden scenario -/

/-- **C1, counterexample.**  The claim's six lines are `"0"`, `"├┬╮"`,
`"1│"`, `"╭┤"`, `"2│"`, `" 3"`; the code does not produce them: with the
children iterated in the order `1, 2, 3` the fork row after the root is the
two-way `"├╮"`, not the three-way `"├┬╮"` (compare the `small` test of
`src/layout/tests.rs` and the iteration-order table in `src/lib.rs`). -/
theorem c1_golden_as_stated_refuted :
    fullRun goldenTree GenCfg.default ≠ ["0", "├┬╮", "1│", "╭┤", "2│", " 3"] := by
  decide

/-- **C1, amended.**  For the root `0` with leaf children `1, 2, 3` iterated
in that order, rounded corners, `row_padding = 0`, no annotations, repeatedly
calling the row-writing operation until it returns false produces exactly the
six newline-terminated lines `"0"`, `"├╮"`, `"1│"`, `"╭┤"`, `"2│"`, `" 3"`
and nothing else: the fourth call writes the last line and returns false, and
every further call writes nothing and returns false again. -/
theorem c1_golden_amended :
    fullRun goldenTree GenCfg.default = ["0", "├╮", "1│", "╭┤", "2│", " 3"] ∧
      (tryStep none (genSeq (Gen.init goldenTree GenCfg.default) 3)).2.2 = .ok false ∧
      (tryStep none (genSeq (Gen.init goldenTree GenCfg.default) 4)).1 = [] ∧
      (tryStep none (genSeq (Gen.init goldenTree GenCfg.default) 4)).2.1 =
        genSeq (Gen.init goldenTree GenCfg.default) 4 ∧
      (tryStep none (genSeq (Gen.init goldenTree GenCfg.default) 4)).2.2 = .ok false :=
  ⟨by decide, rfl, rfl, by decide, rfl⟩

/-! ## C9 — the renderer width contract -/

theorem renderW_narrow_length (cs : Charset) (ws : Nat) (b : BranchW) :
    (renderW cs false ws b).length = ws + b.widthNarrow := by
  cases b <;>
    simp [renderW, BranchW.widthNarrow, List.length_append, List.length_replicate] <;>
    omega

theorem renderW_wide_length (cs : Charset) (ws : Nat) (b : BranchW) :
    (renderW cs true ws b).length = ws + b.widthWide := by
  cases b <;>
    simp [renderW, BranchW.widthWide, List.length_append, List.length_replicate] <;>
    omega

/-- **C9.**  For every built-in style and every drawing primitive, the text
emitted by `write_branch` has display-character length equal to the requested
left padding `ws` plus `width_narrow` for the gutter-0 styles
(`RoundedCorners`, `SharpCorners`) and `width_wide` for the gutter-1 styles
(`RoundedCornersWide`, `SharpCornersWide`, `DoubledLines`), where
`width_narrow` is `Continue ↦ 1`, `Shift ↦ 2 + shift`, `ForkDouble ↦ 2`,
`ForkDoubleShift ↦ 3 + shift`, `ForkTriple ↦ 3`, `ForkTripleShift ↦ 4 +
shift`, and `width_wide` is `Continue ↦ 1`, `Shift ↦ 3 + 2·shift`,
`ForkDouble ↦ 3`, `ForkDoubleShift ↦ 5 + 2·shift`, `ForkTriple ↦ 5`,
`ForkTripleShift ↦ 7 + 2·shift`. -/
theorem c9_renderer_width_contract (b : BranchW) (ws : Nat) :
    (renderW roundedCharset false ws b).length = ws + b.widthNarrow ∧
      (renderW sharpCharset false ws b).length = ws + b.widthNarrow ∧
      (renderW roundedCharset true ws b).length = ws + b.widthWide ∧
      (renderW sharpCharset true ws b).length = ws + b.widthWide ∧
      (renderW doubledCharset true ws b).length = ws + b.widthWide :=
  ⟨renderW_narrow_length _ _ _, renderW_narrow_length _ _ _,
    renderW_wide_length _ _ _, renderW_wide_length _ _ _,
    renderW_wide_length _ _ _⟩

/-! ## C5 — minimum selection with first-index tie-break -/

theorem computeMinIdxGo_le (cols : List (Tree × Nat)) :
    ∀ (i0 : Nat) (acc : Option (Nat × Nat)) (j k : Nat),
      computeMinIdxGo cols i0 acc = some (j, k) →
      (∀ q ∈ cols, k ≤ q.1.key) ∧ (∀ jk', acc = some jk' → k ≤ jk'.2) := by
  induction cols with
  | nil =>
    intro i0 acc j k h
    simp only [computeMinIdxGo] at h
    subst h
    exact ⟨by simp, fun jk' ha => by cases ha; rfl⟩
  | cons hd tl ih =>
    intro i0 acc j k h
    obtain ⟨t, c⟩ := hd
    simp only [computeMinIdxGo] at h
    cases acc with
    | none =>
      obtain ⟨h1, h2⟩ := ih (i0 + 1) (some (i0, t.key)) j k h
      have hk : k ≤ t.key := h2 (i0, t.key) rfl
      refine ⟨?_, fun jk' hE => by cases hE⟩
      intro q hq
      rcases List.mem_cons.1 hq with rfl | hq
      · exact hk
      · exact h1 q hq
    | some jk0 =>
      obtain ⟨j0, k0⟩ := jk0
      by_cases hlt : t.key < k0
      · simp only [if_pos hlt] at h
        obtain ⟨h1, h2⟩ := ih (i0 + 1) (some (i0, t.key)) j k h
        have hk : k ≤ t.key := h2 (i0, t.key) rfl
        refine ⟨?_, ?_⟩
        · intro q hq
          rcases List.mem_cons.1 hq with rfl | hq
          · exact hk
          · exact h1 q hq
        · rintro jk' ⟨rfl⟩
          exact le_of_lt (lt_of_le_of_lt hk hlt)
      · simp only [if_neg hlt] at h
        obtain ⟨h1, h2⟩ := ih (i0 + 1) (some (j0, k0)) j k h
        have hk : k ≤ k0 := h2 (j0, k0) rfl
        refine ⟨?_, ?_⟩
        · intro q hq
          rcases List.mem_cons.1 hq with rfl | hq
          · exact le_trans hk (le_of_not_lt hlt)
          · exact h1 q hq
        · rintro jk' ⟨rfl⟩
          exact hk

theorem computeMinIdxGo_src (cols : List (Tree × Nat)) :
    ∀ (i0 : Nat) (acc : Option (Nat × Nat)) (j k : Nat),
      computeMinIdxGo cols i0 acc = some (j, k) →
      acc = some (j, k) ∨
        ∃ idx q, cols[idx]? = some q ∧ j = i0 + idx ∧ k = q.1.key ∧
          (∀ idx' q', idx' < idx → cols[idx']? = some q' → k < q'.1.key) ∧
          (∀ jk', acc = some jk' → k < jk'.2) := by
  induction cols with
  | nil =>
    intro i0 acc j k h
    simp only [computeMinIdxGo] at h
    exact Or.inl h
  | cons hd tl ih =>
    intro i0 acc j k h
    obtain ⟨t, c⟩ := hd
    simp only [computeMinIdxGo] at h
    -- the accumulator after folding in the head
    have key_step : ∀ (acc' : Option (Nat × Nat)),
        computeMinIdxGo tl (i0 + 1) acc' = some (j, k) →
        acc' = some (j, k) ∨
          ∃ idx q, tl[idx]? = some q ∧ j = (i0 + 1) + idx ∧ k = q.1.key ∧
            (∀ idx' q', idx' < idx → tl[idx']? = some q' → k < q'.1.key) ∧
            (∀ jk', acc' = some jk' → k < jk'.2) := fun acc' => ih (i0 + 1) acc' j k
    cases acc with
    | none =>
      rcases key_step (some (i0, t.key)) h with hacc | ⟨idx, q, hget, hj, hk, hearlier, hstrict⟩
      · -- the head wins outright
        cases hacc
        refine Or.inr ⟨0, (t, c), by simp, by simp, rfl, ?_, fun jk' hE => by cases hE⟩
        intro idx' q' h0 _
        exact absurd h0 (Nat.not_lt_zero _)
      · -- the winner is in the tail
        have hkt : k < t.key := hstrict (i0, t.key) rfl
        refine Or.inr ⟨idx + 1, q, by simpa using hget, by omega, hk, ?_,
          fun jk' hE => by cases hE⟩
        intro idx' q' hlt hget'
        cases idx' with
        | zero =>
          simp at hget'
          subst hget'
          exact hkt
        | succ n =>
          exact hearlier n q' (by omega) (by simpa using hget')
    | some jk0 =>
      obtain ⟨j0, k0⟩ := jk0
      by_cases hlt : t.key < k0
      · simp only [if_pos hlt] at h
        rcases key_step (some (i0, t.key)) h with hacc | ⟨idx, q, hget, hj, hk, hearlier, hstrict⟩
        · cases hacc
          refine Or.inr ⟨0, (t, c), by simp, by simp, rfl, ?_, ?_⟩
          · intro idx' q' h0 _
            exact absurd h0 (Nat.not_lt_zero _)
          · rintro jk' ⟨rfl⟩
            exact hlt
        · have hkt : k < t.key := hstrict (i0, t.key) rfl
          refine Or.inr ⟨idx + 1, q, by simpa using hget, by omega, hk, ?_, ?_⟩
          · intro idx' q' hlt' hget'
            cases idx' with
            | zero =>
              simp at hget'
              subst hget'
              exact hkt
            | succ n =>
              exact hearlier n q' (by omega) (by simpa using hget')
          · rintro jk' ⟨rfl⟩
            exact lt_trans hkt hlt
      · simp only [if_neg hlt] at h
        rcases key_step (some (j0, k0)) h with hacc | ⟨idx, q, hget, hj, hk, hearlier, hstrict⟩
        · exact Or.inl hacc
        · have hk0 : k < k0 := hstrict (j0, k0) rfl
          refine Or.inr ⟨idx + 1, q, by simpa using hget, by omega, hk, ?_, ?_⟩
          · intro idx' q' hlt' hget'
            cases idx' with
            | zero =>
              simp at hget'
              subst hget'
              exact lt_of_lt_of_le hk0 (le_of_not_lt hlt)
            | succ n =>
              exact hearlier n q' (by omega) (by simpa using hget')
          · rintro jk' ⟨rfl⟩
            exact hk0

/-- **C5.**  `min_index` (the `min_by_key` scan) returns an index `i` whose
entry has a key no larger than every active entry's key, and strictly smaller
than the key of every entry at a lower index: among equal minimal keys the
first (lowest-index) entry is selected. -/
theorem c5_min_index_first_tie_break (cols : List (Tree × Nat)) (i : Nat)
    (h : computeMinIdx cols = some i) :
    ∃ p, cols[i]? = some p ∧ (∀ q ∈ cols, p.1.key ≤ q.1.key) ∧
      ∀ j q, j < i → cols[j]? = some q → p.1.key < q.1.key := by
  unfold computeMinIdx at h
  rcases hgo : computeMinIdxGo cols 0 none with _ | ⟨j, k⟩
  · rw [hgo] at h
    cases h
  · rw [hgo] at h
    have hji : j = i := by simpa using h
    rcases computeMinIdxGo_src cols 0 none j k hgo with hacc | ⟨idx, q, hget, hj, hk, hearlier, -⟩
    · cases hacc
    · obtain ⟨hle, -⟩ := computeMinIdxGo_le cols 0 none j k hgo
      have hidx : idx = i := by omega
      subst hidx
      refine ⟨q, hget, fun q' hq' => ?_, fun j' q' hlt hget' => ?_⟩
      · rw [← hk]
        exact hle q' hq'
      · rw [← hk]
        exact hearlier j' q' hlt hget'

/-- **C5, witness.**  On a frontier with keys `5, 3, 3` the scan selects
index `1`: the first of the two equally minimal keys. -/
theorem c5_min_index_first_tie_break_witness :
    ∃ p, [(Tree.leaf 5 'a', 0), (Tree.leaf 3 'b', 1), (Tree.leaf 3 'c', 2)][1]? = some p ∧
      (∀ q ∈ [(Tree.leaf 5 'a', 0), (Tree.leaf 3 'b', 1), (Tree.leaf 3 'c', 2)],
        p.1.key ≤ q.1.key) ∧
      ∀ j q, j < 1 →
        [(Tree.leaf 5 'a', 0), (Tree.leaf 3 'b', 1), (Tree.leaf 3 'c', 2)][j]? = some q →
        p.1.key < q.1.key :=
  c5_min_index_first_tie_break _ 1 (by decide)

/-! ## C2 — the width formula -/

theorem countRuns_eq_dedup_length (l : List Nat) (h : l.Pairwise (· ≤ ·)) :
    countRuns l = l.dedup.length := by
  induction l with
  | nil => simp [countRuns]
  | cons a t ih =>
    cases t with
    | nil => simp [countRuns]
    | cons b r =>
      have hab : a ≤ b := (List.pairwise_cons.1 h).1 b (by simp)
      have htail := (List.pairwise_cons.1 h).2
      by_cases he : a = b
      · subst he
        have hmem : a ∈ a :: r := by simp
        rw [List.dedup_cons_of_mem hmem]
        simpa [countRuns] using ih htail
      · have hnot : a ∉ b :: r := by
          intro hmem
          rcases List.mem_cons.1 hmem with rfl | hmem
          · exact he rfl
          · have hba : b ≤ a := (List.pairwise_cons.1 htail).1 a hmem
            exact he (le_antisymm hab hba)
        rw [List.dedup_cons_of_not_mem hnot]
        have := ih htail
        simp only [countRuns, if_neg he, List.length_cons]
        omega

theorem crStart_le {V : Type} (cols : List (V × Nat)) (c : Nat) :
    ∀ i, crStart cols c i ≤ i := by
  intro i
  induction i with
  | zero => simp [crStart]
  | succ n ih =>
    unfold crStart
    split
    · omega
    · omega

theorem crEnd_ge {V : Type} (cols : List (V × Nat)) (c : Nat) :
    ∀ fuel e, e ≤ crEnd cols c fuel e := by
  intro fuel
  induction fuel with
  | zero => intro e; simp [crEnd]
  | succ n ih =>
    intro e
    unfold crEnd
    split
    · exact le_trans (by omega) (ih (e + 1))
    · omega

/-- **C2.**  For a sorted frontier and a valid target index, `required_width`
is the number of distinct column values plus the extra fork space for the
target's block: exactly `0` when the block has size 1, exactly `1` when it
has size 2, and exactly `2` when it has size 3 with the target interior. -/
theorem c2_required_width_formula {V : Type} (cols : List (V × Nat)) (idx : Nat)
    (hs : ColsSorted cols) (hidx : idx < cols.length) :
    ((columnRange cols idx).2 - (columnRange cols idx).1 = 1 →
        requiredWidth cols idx = distinctCols cols) ∧
      ((columnRange cols idx).2 - (columnRange cols idx).1 = 2 →
        requiredWidth cols idx = distinctCols cols + 1) ∧
      ((columnRange cols idx).2 - (columnRange cols idx).1 = 3 ∧
          (columnRange cols idx).1 < idx ∧ idx + 1 < (columnRange cols idx).2 →
        requiredWidth cols idx = distinctCols cols + 2) := by
  have hsorted : (cols.map Prod.snd).Pairwise (· ≤ ·) := by
    rw [List.pairwise_map]
    exact hs
  have hruns : countRuns (cols.map Prod.snd) = distinctCols cols :=
    countRuns_eq_dedup_length _ hsorted
  have hl : (columnRange cols idx).1 ≤ idx := crStart_le cols (sndAt cols idx) idx
  have hr : idx + 1 ≤ (columnRange cols idx).2 :=
    crEnd_ge cols (sndAt cols idx) cols.length (idx + 1)
  unfold requiredWidth
  rcases hcr : columnRange cols idx with ⟨l, r⟩
  rw [hcr] at hl hr
  simp only
  refine ⟨?_, ?_, ?_⟩
  · intro hsize
    have h1 : l + 1 = r := by omega
    simp [h1, hruns]
  · intro hsize
    have h1 : ¬ (l + 1 = r) := by omega
    have h2 : idx = l ∨ idx + 1 = r := by omega
    simp [h1, h2, hruns]
  · rintro ⟨-, hl2, hr2⟩
    have h1 : ¬ (l + 1 = r) := by omega
    have h2 : ¬ (idx = l ∨ idx + 1 = r) := by omega
    simp [h1, h2, hruns]

/-- **C2, witness.**  On the sorted frontier `0 1 1 1 3` with target index 2
(interior of the size-3 block at column 1), `required_width` is the three
distinct columns plus 2. -/
theorem c2_required_width_formula_witness :
    (columnRange ([((), 0), ((), 1), ((), 1), ((), 1), ((), 3)] : List (Unit × Nat)) 2).2 -
        (columnRange ([((), 0), ((), 1), ((), 1), ((), 1), ((), 3)] : List (Unit × Nat)) 2).1 = 3 ∧
      (columnRange ([((), 0), ((), 1), ((), 1), ((), 1), ((), 3)] : List (Unit × Nat)) 2).1 < 2 ∧
      2 + 1 < (columnRange ([((), 0), ((), 1), ((), 1), ((), 1), ((), 3)] : List (Unit × Nat)) 2).2 ∧
      requiredWidth ([((), 0), ((), 1), ((), 1), ((), 1), ((), 3)] : List (Unit × Nat)) 2 =
        distinctCols ([((), 0), ((), 1), ((), 1), ((), 1), ((), 3)] : List (Unit × Nat)) + 2 :=
  ⟨by decide, by decide, by decide,
    (c2_required_width_formula _ 2 (by decide) (by decide)).2.2 ⟨by decide, by decide, by decide⟩⟩

/-! ## The layout operations only renumber columns: vertices are untouched -/

theorem map_fst_recol {V : Type} (l : List (V × Nat)) (f : V × Nat → Nat) :
    (l.map (fun p => (p.1, f p))).map Prod.fst = l.map Prod.fst := by
  induction l with
  | nil => rfl
  | cons a t ih => simp [ih]

theorem alignGo_map_fst {V : Type} (fuel : Nat) :
    ∀ (w : DW) (cols : List (V × Nat)) (start : Nat) (endB : Option Nat),
      ((alignGo w cols start endB fuel).2.1).map Prod.fst = cols.map Prod.fst := by
  induction fuel with
  | zero => intro w cols start endB; rfl
  | succ n ih =>
    intro w cols start endB
    cases cols with
    | nil => rfl
    | cons hd rest =>
      obtain ⟨v, c⟩ := hd
      have hsplit : (rest.takeWhile (fun p => p.2 = c)).map Prod.fst ++
          (rest.dropWhile (fun p => p.2 = c)).map Prod.fst = rest.map Prod.fst := by
        rw [← List.map_append, List.takeWhile_append_dropWhile]
      simp only [alignGo]
      split
      · split <;>
          simp only [List.map_append, List.map_cons, ih, map_fst_recol] <;>
          rw [List.cons_append, hsplit]
      · simp only [List.map_append, List.map_cons, ih, map_fst_recol]
        rw [List.cons_append, hsplit]

theorem align_map_fst {V : Type} (w : DW) (cols : List (V × Nat)) (start : Nat)
    (endB : Option Nat) :
    ((align w cols start endB).2.1).map Prod.fst = cols.map Prod.fst :=
  alignGo_map_fst _ _ _ _ _

theorem setCol_map_fst {V : Type} (cols : List (V × Nat)) (i c : Nat) :
    (setCol cols i c).map Prod.fst = cols.map Prod.fst := by
  unfold setCol
  rcases h : cols.drop i with _ | ⟨x, r⟩ <;>
    (conv_rhs => rw [← List.take_append_drop i cols]) <;> rw [h] <;> simp

theorem colsBumpTail_map_fst {V : Type} (cols : List (V × Nat)) :
    (colsBumpTail cols).map Prod.fst = cols.map Prod.fst := by
  cases cols <;> simp [colsBumpTail, map_fst_recol]

theorem colsBumpAll_map_fst {V : Type} (cols : List (V × Nat)) :
    (colsBumpAll cols).map Prod.fst = cols.map Prod.fst := by
  simp [colsBumpAll, map_fst_recol]

theorem colsSubAll_map_fst {V : Type} (cols : List (V × Nat)) (s : Nat) :
    (colsSubAll cols s).map Prod.fst = cols.map Prod.fst := by
  simp [colsSubAll, map_fst_recol]

theorem colsForkLeftHead_map_fst {V : Type} (cols : List (V × Nat)) (curCol s : Nat) :
    (colsForkLeftHead cols curCol s).map Prod.fst = cols.map Prod.fst := by
  cases cols <;> simp [colsForkLeftHead, map_fst_recol]

theorem colsForkLeftLast_map_fst {V : Type} (cols : List (V × Nat)) (m s : Nat) :
    (colsForkLeftLast cols m s).map Prod.fst = cols.map Prod.fst := by
  unfold colsForkLeftLast
  rcases h : cols.drop m with _ | ⟨x, r⟩ <;>
    (conv_rhs => rw [← List.take_append_drop m cols]) <;> rw [h] <;>
    simp [map_fst_recol] <;> rfl

theorem colsForkInterior_map_fst {V : Type} (cols : List (V × Nat)) (m curCol s : Nat) :
    (colsForkInterior cols m curCol s).map Prod.fst = cols.map Prod.fst := by
  unfold colsForkInterior
  rcases h : cols.drop m with _ | ⟨x, r⟩ <;>
    (conv_rhs => rw [← List.take_append_drop m cols]) <;> rw [h] <;>
    simp [map_fst_recol] <;> rfl

theorem forkExact_map_fst {V : Type} (w : DW) (cols : List (V × Nat))
    (minIndex start : Nat) (endB : Option Nat) (FORK : Bool) :
    ((forkExact w cols minIndex start endB FORK).2.1).map Prod.fst = cols.map Prod.fst := by
  unfold forkExact
  repeat' first
    | split
    | dsimp only
  all_goals
    first
      | rfl
      | exact setCol_map_fst _ _ _
      | exact colsBumpTail_map_fst _
      | exact colsBumpAll_map_fst _
      | exact colsSubAll_map_fst _ _
      | exact colsForkLeftHead_map_fst _ _ _
      | exact colsForkLeftLast_map_fst _ _ _
      | exact colsForkInterior_map_fst _ _ _ _

theorem forkAlign_map_fst {V : Type} (w : DW) (cols : List (V × Nat))
    (minIndex start : Nat) (endB : Option Nat) (FORK : Bool) :
    ((forkAlign w cols minIndex start endB FORK).2.1).map Prod.fst = cols.map Prod.fst := by
  unfold forkAlign
  dsimp only
  split
  · exact align_map_fst _ _ _ _
  · simp only [List.map_append, align_map_fst, forkExact_map_fst]
    rw [← List.map_append, ← List.map_append]
    congr 1
    have hlr : (columnRange cols minIndex).1 ≤ (columnRange cols minIndex).2 := by
      have h1 : (columnRange cols minIndex).1 ≤ minIndex := crStart_le _ _ _
      have h2 : minIndex + 1 ≤ (columnRange cols minIndex).2 := crEnd_ge _ _ _ _
      omega
    have hdrop : cols.drop (columnRange cols minIndex).2 =
        (cols.drop (columnRange cols minIndex).1).drop
          ((columnRange cols minIndex).2 - (columnRange cols minIndex).1) := by
      rw [List.drop_drop]
      congr 1
      omega
    rw [hdrop, List.append_assoc, List.take_append_drop, List.take_append_drop]

theorem tryMakeSingleton_map_fst (w : DW) (cols : List (Tree × Nat)) (idx dw : Nat) :
    ((tryMakeSingleton w cols idx dw).2).map Prod.fst = cols.map Prod.fst := by
  unfold tryMakeSingleton
  exact forkAlign_map_fst _ _ _ _ _ _

theorem makeSingleton_map_fst (fuel : Nat) :
    ∀ (w : DW) (cols : List (Tree × Nat)) (idx dw : Nat),
      ((makeSingleton fuel w cols idx dw).2).map Prod.fst = cols.map Prod.fst := by
  induction fuel with
  | zero => intro w cols idx dw; rfl
  | succ n ih =>
    intro w cols idx dw
    unfold makeSingleton
    split
    · rfl
    · rw [ih]
      exact tryMakeSingleton_map_fst _ _ _ _

theorem paddingRows_map_fst (n : Nat) :
    ∀ (w : DW) (cols : List (Tree × Nat)) (idx dw : Nat),
      ((paddingRows n w cols idx dw).2).map Prod.fst = cols.map Prod.fst := by
  induction n with
  | zero => intro w cols idx dw; rfl
  | succ n ih =>
    intro w cols idx dw
    unfold paddingRows
    rw [ih]
    exact tryMakeSingleton_map_fst _ _ _ _

theorem annotLoop_map_fst (lines : List (List Char)) :
    ∀ (w : DW) (cols : List (Tree × Nat)) (nextMin dw alignment margin : Nat),
      ((annotLoop w cols nextMin dw alignment margin lines).2).map Prod.fst =
        cols.map Prod.fst := by
  induction lines with
  | nil => intro w cols nextMin dw alignment margin; rfl
  | cons ln rest ih =>
    intro w cols nextMin dw alignment margin
    cases rest with
    | nil =>
      unfold annotLoop
      exact forkAlign_map_fst _ _ _ _ _ _
    | cons ln2 rest2 =>
      unfold annotLoop
      rw [ih]
      exact forkAlign_map_fst _ _ _ _ _ _

theorem writeVertexRow_map_fst (w : DW) (cols : List (Tree × Nat)) (nextMin l r : Nat)
    (delay : Bool) (col : Nat) (m : Char) (dw : Nat) (hlr : l ≤ r) :
    ((writeVertexRow w cols nextMin l r delay col m dw).2).map Prod.fst =
      cols.map Prod.fst := by
  have hmid : ∀ (p s : List (Tree × Nat)),
      p.map Prod.fst = (cols.take l).map Prod.fst →
      s.map Prod.fst = (cols.drop r).map Prod.fst →
      (p ++ (cols.drop l).take (r - l) ++ s).map Prod.fst = cols.map Prod.fst := by
    intro p s hp hs
    simp only [List.map_append, hp, hs]
    rw [← List.map_append, ← List.map_append]
    congr 1
    have h2 : cols.drop r = (cols.drop l).drop (r - l) := by
      rw [List.drop_drop]
      congr 1
      omega
    rw [h2, List.append_assoc, List.take_append_drop, List.take_append_drop]
  have htail : ∀ (p : List (Tree × Nat)),
      p.map Prod.fst = (cols.take l).map Prod.fst →
      (p ++ cols.drop l).map Prod.fst = cols.map Prod.fst := by
    intro p hp
    simp only [List.map_append, hp]
    rw [← List.map_append, List.take_append_drop]
  unfold writeVertexRow
  repeat' first
    | split
    | dsimp only
  all_goals
    first
      | exact hmid _ _ (forkAlign_map_fst _ _ _ _ _ _) (align_map_fst _ _ _ _)
      | exact htail _ (forkAlign_map_fst _ _ _ _ _ _)
      | exact hmid _ _ (align_map_fst _ _ _ _) (align_map_fst _ _ _ _)
      | exact htail _ (align_map_fst _ _ _ _)
      | exact hmid _ _ (align_map_fst _ _ _ _) (forkAlign_map_fst _ _ _ _ _ _)

/-! ## C7 — restore with replacement on a failed children computation -/

theorem setVtx_cons_succ (x : Tree × Nat) (t : List (Tree × Nat)) (i : Nat) (r : Tree) :
    setVtx (x :: t) (i + 1) r = x :: setVtx t i r := by
  simp [setVtx]

theorem setVtx_map_fst (cols : List (Tree × Nat)) :
    ∀ (i : Nat) (repl : Tree),
      (setVtx cols i repl).map Prod.fst = (cols.map Prod.fst).set i repl := by
  induction cols with
  | nil => intro i repl; simp [setVtx]
  | cons x t ih =>
    intro i repl
    cases i with
    | zero => simp [setVtx]
    | succ n => simp [setVtx_cons_succ, ih]

theorem setVtx_length (cols : List (Tree × Nat)) (i : Nat) (repl : Tree) :
    (setVtx cols i repl).length = cols.length := by
  have h := congrArg List.length (setVtx_map_fst cols i repl)
  simpa using h

theorem stepFailure_columns (g : Gen) (minIdx : Nat) (repl : Tree) :
    ((stepFailure g minIdx repl).2).columns.map Prod.fst =
        (g.columns.map Prod.fst).set minIdx repl ∧
      ((stepFailure g minIdx repl).2).config = g.config ∧
      ((stepFailure g minIdx repl).2).columns.length = g.columns.length := by
  unfold stepFailure
  dsimp only
  cases h : computeMinIdx (setVtx g.columns minIdx repl) with
  | none =>
    exact ⟨setVtx_map_fst _ _ _, rfl, setVtx_length _ _ _⟩
  | some nm =>
    dsimp only
    refine ⟨?_, rfl, ?_⟩
    · rw [makeSingleton_map_fst]
      exact setVtx_map_fst _ _ _
    · have h1 := makeSingleton_map_fst
        (stepFuel (setVtx g.columns minIdx repl)
          (g.config.normalize (requiredWidth (setVtx g.columns minIdx repl) nm)))
        DW.new (setVtx g.columns minIdx repl) nm
        (g.config.normalize (requiredWidth (setVtx g.columns minIdx repl) nm))
      have h2 := congrArg List.length h1
      simp only [List.length_map] at h2
      rw [h2]
      exact setVtx_length _ _ _

/-- **C7, counterexample.**  After the first call on the golden tree the
frontier is `1@0, 2@1, 3@1`.  If the children computation for `1` then fails
with replacement key `9`, the new minimal vertex is `2`, whose block `2@1,
3@1` is not a singleton, so `handle_no_children` writes a preparatory fork
row that renumbers the columns to `0, 1, 2`: the claim's "same column index
in every position" is violated. -/
theorem c7_same_columns_refuted :
    ¬ ((tryStep (some (Tree.leaf 9 '9'))
          (genSeq (Gen.init goldenTree GenCfg.default) 1)).2.1.columns.map Prod.snd =
        (genSeq (Gen.init goldenTree GenCfg.default) 1).columns.map Prod.snd) := by
  decide

/-- **C7, amended.**  Whenever the children computation fails and returns a
replacement vertex, the call leaves the frontier with the same number of
entries and the same vertices in the same slots except for the replacement
in the failed vertex's slot (no structural change); the column indices may be
renumbered by the preparatory rows written for the new minimal vertex (they
are unchanged when the replacement equals the failed vertex, claim C6); and
the call reports the `TryChildrenFailed` condition, distinguishable from the
I/O variant. -/
theorem c7_restore_with_replacement_amended (g : Gen) (i : Nat) (p : Tree × Nat)
    (repl : Tree) (hmin : g.minIndex = some i) (hget : g.columns[i]? = some p) :
    (tryStep (some repl) g).2.2 = .error .tryChildrenFailed ∧
      WErr.tryChildrenFailed ≠ WErr.io ∧
      (tryStep (some repl) g).2.1.columns.length = g.columns.length ∧
      vtxList ((tryStep (some repl) g).2.1) = (vtxList g).set i repl := by
  obtain ⟨cols, mi, cfg⟩ := g
  simp only at hmin hget
  subst hmin
  unfold tryStep
  dsimp only
  rw [hget]
  obtain ⟨vtx, col⟩ := p
  dsimp only
  have hspec := stepFailure_columns ⟨cols, some i, cfg⟩ i repl
  exact ⟨rfl, by decide, hspec.2.2, hspec.1⟩

/-- **C7, witness.**  The amended theorem applied after the first call on
the golden tree, with the failed vertex `1` replaced by a fresh leaf `9`. -/
theorem c7_restore_with_replacement_amended_witness :
    (tryStep (some (Tree.leaf 9 '9'))
        (genSeq (Gen.init goldenTree GenCfg.default) 1)).2.2 =
      .error .tryChildrenFailed ∧
    WErr.tryChildrenFailed ≠ WErr.io ∧
    (tryStep (some (Tree.leaf 9 '9'))
        (genSeq (Gen.init goldenTree GenCfg.default) 1)).2.1.columns.length =
      (genSeq (Gen.init goldenTree GenCfg.default) 1).columns.length ∧
    vtxList ((tryStep (some (Tree.leaf 9 '9'))
        (genSeq (Gen.init goldenTree GenCfg.default) 1)).2.1) =
      (vtxList (genSeq (Gen.init goldenTree GenCfg.default) 1)).set 0 (Tree.leaf 9 '9') :=
  c7_restore_with_replacement_amended _ 0 (Tree.leaf 1 '1', 0) _ (by decide) (by decide)

/-! ## C6 — idempotence of retrying with the same replacement vertex -/

theorem setVtx_self (cols : List (Tree × Nat)) (i : Nat) (vtx : Tree) (col : Nat)
    (hget : cols[i]? = some (vtx, col)) : setVtx cols i vtx = cols := by
  have hlt : i < cols.length := by
    rcases List.getElem?_eq_some_iff.1 hget with ⟨h, -⟩
    exact h
  have hdrop : cols.drop i = (vtx, col) :: cols.drop (i + 1) := by
    rw [List.drop_eq_getElem_cons hlt]
    congr 1
    have := List.getElem?_eq_some_iff.1 hget
    rcases this with ⟨h, heq⟩
    exact heq
  unfold setVtx
  rw [hdrop]
  conv_rhs => rw [← List.take_append_drop i cols]
  rw [hdrop]

theorem makeSingleton_of_singleton (fuel : Nat) (w : DW) (cols : List (Tree × Nat))
    (idx dw : Nat) (hfuel : 0 < fuel) (hsing : isSingleton cols idx = true) :
    makeSingleton fuel w cols idx dw = (w, cols) := by
  cases fuel with
  | zero => exact absurd hfuel (by omega)
  | succ n =>
    unfold makeSingleton
    rw [if_pos hsing]

theorem stepFuel_pos (cols : List (Tree × Nat)) (dw : Nat) : 0 < stepFuel cols dw := by
  unfold stepFuel
  positivity

/-- One failing call whose replacement is the failed vertex itself writes
nothing and leaves the generator state unchanged, provided the cached
minimal index is correct and its block is a singleton (the state every
completed call establishes). -/
theorem tryStep_fail_same (g : Gen) (i : Nat) (vtx : Tree) (col : Nat)
    (hmin : g.minIndex = some i) (hget : g.columns[i]? = some (vtx, col))
    (hcache : computeMinIdx g.columns = some i)
    (hsing : isSingleton g.columns i = true) :
    tryStep (some vtx) g = ([], g, .error .tryChildrenFailed) := by
  obtain ⟨cols, mi, cfg⟩ := g
  simp only at hmin hget hcache hsing
  subst hmin
  unfold tryStep
  dsimp only
  rw [hget]
  dsimp only
  unfold stepFailure
  dsimp only
  rw [setVtx_self cols i vtx col hget, hcache]
  dsimp only
  rw [makeSingleton_of_singleton _ _ _ _ _ (stepFuel_pos _ _) hsing]
  rfl

/-- **C6.**  For every generator state at a call boundary (cached minimal
index correct and its block a singleton, as holds after `init` and after
every completed call) and every retry count `k`: failing the children
computation `k` times, each time with the failed vertex itself as the
replacement, and then continuing with any schedule of further calls,
produces output byte-identical to running that schedule directly — the
failed calls write nothing, so already-written bytes are never duplicated.
-/
theorem c6_retry_idempotent (g : Gen) (i : Nat) (vtx : Tree) (col : Nat)
    (hmin : g.minIndex = some i) (hget : g.columns[i]? = some (vtx, col))
    (hcache : computeMinIdx g.columns = some i)
    (hsing : isSingleton g.columns i = true)
    (k : Nat) (rest : List (Option Tree)) :
    runCalls (List.replicate k (some vtx) ++ rest) g = runCalls rest g := by
  induction k with
  | zero => simp
  | succ n ih =>
    rw [List.replicate_succ, List.cons_append]
    show (tryStep (some vtx) g).1 ++
      runCalls (List.replicate n (some vtx) ++ rest) (tryStep (some vtx) g).2.1 = _
    rw [tryStep_fail_same g i vtx col hmin hget hcache hsing]
    simpa using ih

/-- **C6, witness.**  Two failed retries of the root of the golden tree
(replacement: the root itself) followed by one successful call produce the
same bytes as the successful call alone. -/
theorem c6_retry_idempotent_witness :
    runCalls (List.replicate 2 (some goldenTree) ++ [none])
        (Gen.init goldenTree GenCfg.default) =
      runCalls [none] (Gen.init goldenTree GenCfg.default) :=
  c6_retry_idempotent _ 0 goldenTree 0 (by decide) (by decide) (by decide) (by decide)
    2 [none]

/-! ## C10 — the infallible path never sees a children failure -/

/-- **C10.**  Driven through the blanket `TryRamify` implementation for a
`Ramify` collaborator, whose `try_children` always returns `Ok`,
`write_next_vertex` never observes `TryChildrenFailed` (nor any error other
than the writer's own, absent here): its `unreachable!()` arm is dead code.
-/
theorem c10_write_next_vertex_no_children_failure (g : Gen) (e : WErr) :
    (writeNextVertex g).2.2 ≠ .error e := by
  unfold writeNextVertex tryStep
  split
  · exact fun hh => Except.noConfusion hh
  · split
    · exact fun hh => Except.noConfusion hh
    · exact fun hh => Except.noConfusion hh

/-! ## C4 — exhaustion, visit-once and minimal-key order -/

theorem computeMinIdxGo_isSome (cols : List (Tree × Nat)) :
    ∀ (i0 : Nat) (jk : Nat × Nat), (computeMinIdxGo cols i0 (some jk)).isSome = true := by
  induction cols with
  | nil => intro i0 jk; rfl
  | cons hd tl ih =>
    intro i0 jk
    obtain ⟨t, c⟩ := hd
    obtain ⟨j, k⟩ := jk
    show (computeMinIdxGo tl (i0 + 1)
      (if t.key < k then some (i0, t.key) else some (j, k))).isSome = true
    by_cases hlt : t.key < k
    · rw [if_pos hlt]; exact ih _ _
    · rw [if_neg hlt]; exact ih _ _

theorem computeMinIdx_cons_isSome (hd : Tree × Nat) (tl : List (Tree × Nat)) :
    (computeMinIdx (hd :: tl)).isSome = true := by
  obtain ⟨t, c⟩ := hd
  unfold computeMinIdx
  rw [show computeMinIdxGo ((t, c) :: tl) 0 none
    = computeMinIdxGo tl (0 + 1) (some (0, t.key)) from rfl]
  have hs := computeMinIdxGo_isSome tl (0 + 1) (0, t.key)
  cases hx : computeMinIdxGo tl (0 + 1) (some (0, t.key)) with
  | none => rw [hx] at hs; cases hs
  | some jk => rfl

theorem computeMinIdx_entry (cols : List (Tree × Nat)) (i : Nat)
    (h : computeMinIdx cols = some i) :
    ∃ p, cols[i]? = some p ∧ ∀ q ∈ cols, p.1.key ≤ q.1.key := by
  unfold computeMinIdx at h
  rcases hgo : computeMinIdxGo cols 0 none with _ | ⟨j, k⟩
  · rw [hgo] at h
    cases h
  · rw [hgo] at h
    have hji : j = i := by simpa using h
    rcases computeMinIdxGo_src cols 0 none j k hgo with hacc | ⟨idx, q, hget, hj, hk, -, -⟩
    · cases hacc
    · obtain ⟨hle, -⟩ := computeMinIdxGo_le cols 0 none j k hgo
      have hidx : idx = i := by omega
      subst hidx
      exact ⟨q, hget, fun q' hq' => by rw [← hk]; exact hle q' hq'⟩

theorem computeMinIdxGo_congr :
    ∀ (cols cols' : List (Tree × Nat)), cols.map Prod.fst = cols'.map Prod.fst →
      ∀ (i0 : Nat) (acc : Option (Nat × Nat)),
        computeMinIdxGo cols i0 acc = computeMinIdxGo cols' i0 acc := by
  intro cols
  induction cols with
  | nil =>
    intro cols' h i0 acc
    cases cols' with
    | nil => rfl
    | cons hd' tl' => simp at h
  | cons hd tl ih =>
    intro cols' h i0 acc
    cases cols' with
    | nil => simp at h
    | cons hd' tl' =>
      obtain ⟨t, c⟩ := hd
      obtain ⟨t', c'⟩ := hd'
      simp only [List.map_cons, List.cons.injEq] at h
      obtain ⟨ht, htl⟩ := h
      subst ht
      simp only [computeMinIdxGo]
      exact ih tl' htl (i0 + 1) _

theorem computeMinIdx_congr (cols cols' : List (Tree × Nat))
    (h : cols.map Prod.fst = cols'.map Prod.fst) :
    computeMinIdx cols = computeMinIdx cols' := by
  unfold computeMinIdx
  rw [computeMinIdxGo_congr cols cols' h]

theorem sizeF_toList : ∀ (cs : TreeList), forestSizeL cs.toList = cs.sizeF
  | .nil => rfl
  | .cons t ts => by
    have ih := sizeF_toList ts
    simp only [TreeList.toList, forestSizeL, List.map_cons, List.sum_cons,
      TreeList.sizeF] at *
    omega

theorem subtreesF_toList : ∀ (cs : TreeList), forestSubtrees cs.toList = cs.subtreesF
  | .nil => rfl
  | .cons t ts => by
    have ih := subtreesF_toList ts
    simp only [TreeList.toList, forestSubtrees, List.map_cons, List.flatten_cons,
      TreeList.subtreesF] at *
    rw [ih]

theorem size_children : ∀ (t : Tree), t.size = 1 + forestSizeL t.children.toList
  | .node k m a cs => by
    simp only [Tree.size, Tree.children, sizeF_toList]

theorem size_pos (t : Tree) : 0 < t.size := by
  rw [size_children]
  omega

theorem subtrees_children :
    ∀ (t : Tree), t.subtrees = t :: forestSubtrees t.children.toList
  | .node k m a cs => by
    simp only [Tree.subtrees, Tree.children, subtreesF_toList]

theorem forestSizeL_append (a b : List Tree) :
    forestSizeL (a ++ b) = forestSizeL a + forestSizeL b := by
  simp [forestSizeL]

theorem forestSizeL_cons (t : Tree) (l : List Tree) :
    forestSizeL (t :: l) = t.size + forestSizeL l := by
  simp [forestSizeL]

theorem forestSubtrees_append (a b : List Tree) :
    forestSubtrees (a ++ b) = forestSubtrees a ++ forestSubtrees b := by
  simp [forestSubtrees]

theorem forestSubtrees_cons (t : Tree) (l : List Tree) :
    forestSubtrees (t :: l) = t.subtrees ++ forestSubtrees l := by
  simp [forestSubtrees]

theorem forestSizeL_eq_zero (l : List Tree) : forestSizeL l = 0 ↔ l = [] := by
  cases l with
  | nil => simp [forestSizeL]
  | cons t ts =>
    simp only [forestSizeL, List.map_cons, List.sum_cons]
    constructor
    · intro h
      have := size_pos t
      omega
    · intro h
      exact (List.cons_ne_nil t ts h).elim

theorem map_fst_pairs (l : List Tree) (col : Nat) :
    (l.map (fun c => (c, col))).map Prod.fst = l := by
  induction l with
  | nil => rfl
  | cons a t ih => simp [ih]

theorem list_take_cons_drop {α : Type} (l : List α) (i : Nat) (a : α)
    (h : l[i]? = some a) : l = l.take i ++ a :: l.drop (i + 1) := by
  have hi : i < l.length := by
    by_contra hge
    rw [List.getElem?_eq_none (by omega)] at h
    cases h
  have ha : l[i] = a := by
    have hx := List.getElem?_eq_getElem hi
    rw [hx] at h
    exact Option.some.inj h
  conv_lhs => rw [← List.take_append_drop i l]
  rw [List.drop_eq_getElem_cons hi, ha]

theorem drawnUpTo_succ (t : Tree) (cfg : GenCfg) (k : Nat) :
    drawnUpTo t cfg (k + 1) =
      drawnUpTo t cfg k ++ (drawnAt (genSeq (Gen.init t cfg) k)).toList := by
  unfold drawnUpTo
  rw [List.range_succ, List.filterMap_append]
  cases h : drawnAt (genSeq (Gen.init t cfg) k) with
  | none => simp [List.filterMap_cons, h]
  | some v => simp [List.filterMap_cons, h]

theorem tryStep_none_of_min_none (g : Gen) (h : g.minIndex = none) :
    tryStep none g = ([], g, .ok false) := by
  unfold tryStep
  rw [h]

theorem tryStep_succ_eq (g : Gen) (i : Nat) (vtx : Tree) (col : Nat)
    (hmin : g.minIndex = some i) (hget : g.columns[i]? = some (vtx, col)) :
    tryStep none g = ((stepSuccess g i vtx col).1, (stepSuccess g i vtx col).2.1,
      .ok (stepSuccess g i vtx col).2.2) := by
  unfold tryStep
  rw [hmin]
  dsimp only
  rw [hget]

theorem stepSuccess_spec (g : Gen) (minIdx : Nat) (vtx : Tree) (col : Nat) :
    ((stepSuccess g minIdx vtx col).2.1).columns.map Prod.fst =
        (g.columns.take minIdx ++ (vtx.children.toList).map (fun c => (c, col)) ++
          g.columns.drop (minIdx + 1)).map Prod.fst ∧
      ((stepSuccess g minIdx vtx col).2.1).minIndex =
        computeMinIdx (g.columns.take minIdx ++
          (vtx.children.toList).map (fun c => (c, col)) ++ g.columns.drop (minIdx + 1)) ∧
      ((stepSuccess g minIdx vtx col).2.1).config = g.config ∧
      (stepSuccess g minIdx vtx col).2.2 =
        (computeMinIdx (g.columns.take minIdx ++
          (vtx.children.toList).map (fun c => (c, col)) ++
          g.columns.drop (minIdx + 1))).isSome := by
  unfold stepSuccess
  dsimp only
  cases h : computeMinIdx (g.columns.take minIdx ++
      (vtx.children.toList).map (fun c => (c, col)) ++ g.columns.drop (minIdx + 1)) with
  | none =>
    exact ⟨rfl, rfl, rfl, rfl⟩
  | some nextMin =>
    dsimp only
    refine ⟨?_, rfl, rfl, rfl⟩
    rw [makeSingleton_map_fst, paddingRows_map_fst]
    cases hann : vtx.annot with
    | nil =>
      dsimp only
      exact writeVertexRow_map_fst _ _ _ _ _ _ _ _ _ (Nat.le_add_right _ _)
    | cons first tail =>
      dsimp only
      rw [annotLoop_map_fst]
      exact writeVertexRow_map_fst _ _ _ _ _ _ _ _ _ (Nat.le_add_right _ _)

theorem columns_nil_of_min_none (g : Gen)
    (hm : g.minIndex = computeMinIdx g.columns) (hmi : g.minIndex = none) :
    g.columns = [] := by
  cases hc : g.columns with
  | nil => rfl
  | cons hd tl =>
    exfalso
    rw [hmi, hc] at hm
    have hs := computeMinIdx_cons_isSome hd tl
    rw [← hm] at hs
    cases hs

/-- The generation invariant: at every call boundary the configuration is
unchanged, the cached minimal index is the computed one, the total number of
vertices reachable from the frontier is the tree's size minus the number of
calls made, and the drawn vertices together with the vertices still reachable
from the frontier are a permutation of all reachable vertices. -/
theorem genSeq_invariant (t : Tree) (cfg : GenCfg) (k : Nat) :
    (genSeq (Gen.init t cfg) k).config = cfg ∧
      (genSeq (Gen.init t cfg) k).minIndex =
        computeMinIdx (genSeq (Gen.init t cfg) k).columns ∧
      forestSizeL (vtxList (genSeq (Gen.init t cfg) k)) = t.size - k ∧
      (drawnUpTo t cfg k ++ forestSubtrees (vtxList (genSeq (Gen.init t cfg) k))).Perm
        t.subtrees := by
  induction k with
  | zero =>
    refine ⟨rfl, ?_, ?_, ?_⟩
    · simp [genSeq, Gen.init, computeMinIdx, computeMinIdxGo]
    · simp [genSeq, Gen.init, vtxList, forestSizeL]
    · simp only [drawnUpTo, List.range_zero, List.filterMap_nil, List.nil_append,
        genSeq, Gen.init, vtxList, List.map_cons, List.map_nil, forestSubtrees,
        List.flatten_cons, List.flatten_nil, List.append_nil]
      exact List.Perm.refl _
  | succ k ih =>
    obtain ⟨hcfg, hmin, hsz, hperm⟩ := ih
    set g := genSeq (Gen.init t cfg) k with hg
    cases hmi : g.minIndex with
    | none =>
      have hstep : tryStep none g = ([], g, .ok false) := tryStep_none_of_min_none g hmi
      have hnext : genSeq (Gen.init t cfg) (k + 1) = g := by
        calc genSeq (Gen.init t cfg) (k + 1) = (tryStep none g).2.1 := by
              rw [hg]; simp only [genSeq]
          _ = g := by rw [hstep]
      have hcols : g.columns = [] := columns_nil_of_min_none g hmin hmi
      have h0 : vtxList g = [] := by simp [vtxList, hcols]
      have hdrn : drawnAt g = none := by simp [drawnAt, hmi]
      have hupto : drawnUpTo t cfg (k + 1) = drawnUpTo t cfg k := by
        rw [drawnUpTo_succ, ← hg, hdrn]
        simp
      refine ⟨by rw [hnext]; exact hcfg, by rw [hnext]; exact hmin, ?_, ?_⟩
      · rw [hnext, h0]
        rw [h0] at hsz
        simp only [forestSizeL, List.map_nil, List.sum_nil] at hsz ⊢
        omega
      · rw [hnext, hupto]
        exact hperm
    | some i =>
      have hsome : computeMinIdx g.columns = some i := by rw [← hmin, hmi]
      obtain ⟨p, hget, hle⟩ := computeMinIdx_entry g.columns i hsome
      obtain ⟨vtx, col⟩ := p
      have hstep := tryStep_succ_eq g i vtx col hmi hget
      obtain ⟨hcols', hmin', hcfg', hflag⟩ := stepSuccess_spec g i vtx col
      have hnext : genSeq (Gen.init t cfg) (k + 1) = (stepSuccess g i vtx col).2.1 := by
        calc genSeq (Gen.init t cfg) (k + 1) = (tryStep none g).2.1 := by
              rw [hg]; simp only [genSeq]
          _ = (stepSuccess g i vtx col).2.1 := by rw [hstep]
      have hvl : vtxList g = (vtxList g).take i ++ vtx :: (vtxList g).drop (i + 1) :=
        list_take_cons_drop (vtxList g) i vtx
          (by simp [vtxList, List.getElem?_map, hget])
      have hvl' : vtxList (genSeq (Gen.init t cfg) (k + 1)) =
          (vtxList g).take i ++ vtx.children.toList ++ (vtxList g).drop (i + 1) := by
        rw [hnext]
        unfold vtxList
        rw [hcols']
        simp only [List.map_append, List.map_take, List.map_drop, map_fst_pairs]
      have hszg : forestSizeL (vtxList g) =
          forestSizeL ((vtxList g).take i) + vtx.size +
            forestSizeL ((vtxList g).drop (i + 1)) := by
        conv_lhs => rw [hvl]
        rw [forestSizeL_append, forestSizeL_cons]
        omega
      have hse := size_children vtx
      have hsp := size_pos vtx
      have hdr : drawnAt g = some vtx := by simp [drawnAt, hmi, hget]
      have hupto : drawnUpTo t cfg (k + 1) = drawnUpTo t cfg k ++ [vtx] := by
        rw [drawnUpTo_succ, ← hg, hdr]
        rfl
      refine ⟨?_, ?_, ?_, ?_⟩
      · rw [hnext, hcfg']
        exact hcfg
      · rw [hnext, hmin']
        refine computeMinIdx_congr _ _ ?_
        rw [hcols']
      · rw [hvl', forestSizeL_append, forestSizeL_append]
        omega
      · rw [hupto, hvl', forestSubtrees_append, forestSubtrees_append]
        have hfs : forestSubtrees (vtxList g) =
            forestSubtrees ((vtxList g).take i) ++
              ((vtx :: forestSubtrees vtx.children.toList) ++
                forestSubtrees ((vtxList g).drop (i + 1))) := by
          conv_lhs => rw [hvl]
          rw [forestSubtrees_append, forestSubtrees_cons, subtrees_children vtx]
        rw [hfs] at hperm
        have hmid : ((drawnUpTo t cfg k ++ [vtx]) ++
            (forestSubtrees ((vtxList g).take i) ++
              forestSubtrees vtx.children.toList ++
              forestSubtrees ((vtxList g).drop (i + 1)))).Perm
            (drawnUpTo t cfg k ++
              (forestSubtrees ((vtxList g).take i) ++
                ((vtx :: forestSubtrees vtx.children.toList) ++
                  forestSubtrees ((vtxList g).drop (i + 1))))) := by
          simp only [List.append_assoc, List.singleton_append, List.cons_append,
            List.nil_append]
          exact List.Perm.append_left _ List.perm_middle.symm
        exact hmid.trans hperm

theorem genSeq_result (t : Tree) (cfg : GenCfg) (k : Nat) :
    (tryStep none (genSeq (Gen.init t cfg) k)).2.2 = .ok true ↔ k + 1 < t.size := by
  obtain ⟨hcfg, hmin, hsz, -⟩ := genSeq_invariant t cfg k
  obtain ⟨-, hmin1, hsz1, -⟩ := genSeq_invariant t cfg (k + 1)
  set g := genSeq (Gen.init t cfg) k with hg
  cases hmi : g.minIndex with
  | none =>
    have hcols : g.columns = [] := columns_nil_of_min_none g hmin hmi
    have h0 : vtxList g = [] := by simp [vtxList, hcols]
    rw [h0] at hsz
    simp only [forestSizeL, List.map_nil, List.sum_nil] at hsz
    rw [tryStep_none_of_min_none g hmi]
    constructor
    · intro h
      simp at h
    · intro h
      exfalso
      omega
  | some i =>
    have hsome : computeMinIdx g.columns = some i := by rw [← hmin, hmi]
    obtain ⟨p, hget, -⟩ := computeMinIdx_entry g.columns i hsome
    obtain ⟨vtx, col⟩ := p
    have hstep := tryStep_succ_eq g i vtx col hmi hget
    obtain ⟨hcols', hmin', -, hflag⟩ := stepSuccess_spec g i vtx col
    have hnext : genSeq (Gen.init t cfg) (k + 1) = (stepSuccess g i vtx col).2.1 := by
      calc genSeq (Gen.init t cfg) (k + 1) = (tryStep none g).2.1 := by
            rw [hg]; simp only [genSeq]
        _ = (stepSuccess g i vtx col).2.1 := by rw [hstep]
    have hcm : computeMinIdx (g.columns.take i ++
          (vtx.children.toList).map (fun c => (c, col)) ++ g.columns.drop (i + 1)) =
        computeMinIdx (genSeq (Gen.init t cfg) (k + 1)).columns := by
      refine computeMinIdx_congr _ _ ?_
      rw [hnext, hcols']
    rw [hstep]
    dsimp only
    rw [hflag, hcm]
    constructor
    · intro h
      have hs : (computeMinIdx (genSeq (Gen.init t cfg) (k + 1)).columns).isSome = true :=
        Except.ok.inj h
      cases hc : (genSeq (Gen.init t cfg) (k + 1)).columns with
      | nil =>
        rw [hc] at hs
        simp [computeMinIdx, computeMinIdxGo] at hs
      | cons hd tl =>
        have h1 : 1 ≤ forestSizeL (vtxList (genSeq (Gen.init t cfg) (k + 1))) := by
          have hp := size_pos hd.1
          simp [vtxList, hc, forestSizeL]
          omega
        omega
    · intro h
      have hne : (genSeq (Gen.init t cfg) (k + 1)).columns ≠ [] := by
        intro hc
        have h0 : vtxList (genSeq (Gen.init t cfg) (k + 1)) = [] := by
          simp [vtxList, hc]
        rw [h0] at hsz1
        simp only [forestSizeL, List.map_nil, List.sum_nil] at hsz1
        omega
      cases hc : (genSeq (Gen.init t cfg) (k + 1)).columns with
      | nil => exact absurd hc hne
      | cons hd tl => rw [computeMinIdx_cons_isSome hd tl]

theorem genSeq_noop (t : Tree) (cfg : GenCfg) (k : Nat) (hk : t.size ≤ k) :
    tryStep none (genSeq (Gen.init t cfg) k) =
      ([], genSeq (Gen.init t cfg) k, .ok false) := by
  obtain ⟨-, hmin, hsz, -⟩ := genSeq_invariant t cfg k
  set g := genSeq (Gen.init t cfg) k with hg
  have h0 : vtxList g = [] := by
    refine (forestSizeL_eq_zero _).1 ?_
    rw [hsz]
    omega
  have hcols : g.columns = [] := by
    cases hc : g.columns with
    | nil => rfl
    | cons hd tl =>
      exfalso
      simp [vtxList, hc] at h0
  have hmi : g.minIndex = none := by
    rw [hmin, hcols]
    rfl
  exact tryStep_none_of_min_none g hmi

/-- **C4.**  For every finite tree, repeated calls to the row-writing
operation terminate: a call reports `Ok(true)` exactly while vertices remain
(so the `size`-th call and every later one returns `Ok(false)`), and once the
tree is exhausted every further call writes nothing and leaves the state
unchanged.  The children computation is invoked exactly once per reachable
vertex: the vertices drawn by the first `size` calls are a permutation of all
reachable vertices.  The drawing order is consistent with minimal-key
selection: every drawn vertex has a key no larger than that of every vertex
then reachable from the frontier. -/
theorem c4_exhaustion_visit_once_min_order (t : Tree) (cfg : GenCfg) :
    (∀ k, (tryStep none (genSeq (Gen.init t cfg) k)).2.2 = .ok true ↔ k + 1 < t.size) ∧
      (∀ k, t.size ≤ k →
        tryStep none (genSeq (Gen.init t cfg) k) =
          ([], genSeq (Gen.init t cfg) k, .ok false)) ∧
      (drawnUpTo t cfg t.size).Perm t.subtrees ∧
      (∀ k v, drawnAt (genSeq (Gen.init t cfg) k) = some v →
        ∀ u ∈ vtxList (genSeq (Gen.init t cfg) k), v.key ≤ u.key) := by
  refine ⟨fun k => genSeq_result t cfg k, fun k hk => genSeq_noop t cfg k hk, ?_, ?_⟩
  · obtain ⟨-, -, hsz, hperm⟩ := genSeq_invariant t cfg t.size
    have h0 : vtxList (genSeq (Gen.init t cfg) t.size) = [] := by
      refine (forestSizeL_eq_zero _).1 ?_
      rw [hsz]
      omega
    rw [h0] at hperm
    simpa [forestSubtrees] using hperm
  · intro k v hdr u hu
    obtain ⟨-, hmin, -, -⟩ := genSeq_invariant t cfg k
    set g := genSeq (Gen.init t cfg) k with hg
    cases hmi : g.minIndex with
    | none => simp [drawnAt, hmi] at hdr
    | some i =>
      have hsome : computeMinIdx g.columns = some i := by rw [← hmin, hmi]
      obtain ⟨p, hget, hle⟩ := computeMinIdx_entry g.columns i hsome
      simp only [drawnAt, hmi, hget, Option.map_some'] at hdr
      obtain ⟨q, hq, hqu⟩ : ∃ q ∈ g.columns, q.1 = u := by
        simpa [vtxList, List.mem_map] using hu
      have hpv : p.1 = v := Option.some.inj hdr
      rw [← hpv, ← hqu]
      exact hle q hq

/-- **C4, witness.**  On the golden tree (four vertices): the second call
still reports true, the fifth call is a no-op reporting false, and the four
drawn vertices are a permutation of the tree's four reachable vertices. -/
theorem c4_exhaustion_visit_once_min_order_witness :
    (tryStep none (genSeq (Gen.init goldenTree GenCfg.default) 1)).2.2 = .ok true ∧
      tryStep none (genSeq (Gen.init goldenTree GenCfg.default) 4) =
        ([], genSeq (Gen.init goldenTree GenCfg.default) 4, .ok false) ∧
      (drawnUpTo goldenTree GenCfg.default goldenTree.size).Perm goldenTree.subtrees :=
  ⟨((c4_exhaustion_visit_once_min_order goldenTree GenCfg.default).1 1).2 (by decide),
   (c4_exhaustion_visit_once_min_order goldenTree GenCfg.default).2.1 4 (by decide),
   (c4_exhaustion_visit_once_min_order goldenTree GenCfg.default).2.2.1⟩

/-! ## C3 — the frontier stays sorted by column -/

theorem colsSorted_of_const {V : Type} (l : List (V × Nat)) (C : Nat)
    (h : ∀ p ∈ l, p.2 = C) : ColsSorted l := by
  induction l with
  | nil => exact List.Pairwise.nil
  | cons x t ih =>
    refine List.pairwise_cons.2
      ⟨fun y hy => ?_, ih fun p hp => h p (List.mem_cons_of_mem x hp)⟩
    rw [h x (List.mem_cons_self x t), h y (List.mem_cons_of_mem x hy)]

theorem sorted_head_least {V : Type} (x : V × Nat) (l : List (V × Nat))
    (hs : ColsSorted (x :: l)) : ∀ p ∈ x :: l, x.2 ≤ p.2 := by
  intro p hp
  rcases List.mem_cons.1 hp with rfl | hp
  · exact le_refl _
  · exact (List.pairwise_cons.1 hs).1 p hp

theorem dropWhile_head_not {α : Type} (p : α → Bool) :
    ∀ (l : List α) (x : α) (xs : List α), l.dropWhile p = x :: xs → p x = false := by
  intro l
  induction l with
  | nil => intro x xs h; cases h
  | cons a t ih =>
    intro x xs h
    rw [List.dropWhile_cons] at h
    by_cases hp : p a
    · rw [if_pos hp] at h
      exact ih x xs h
    · rw [if_neg hp] at h
      cases h
      simpa using hp

theorem mem_recol {V : Type} (l : List (V × Nat)) (X : Nat) :
    ∀ p ∈ l.map (fun q => (q.1, X)), p.2 = X := fun p hp => by
  obtain ⟨q, -, rfl⟩ := List.mem_map.1 hp
  rfl

theorem alignGo_nil {V : Type} (fuel : Nat) (w : DW) (start : Nat) (endB : Option Nat) :
    (alignGo w ([] : List (V × Nat)) start endB fuel).2.1 = [] ∧
      (alignGo w ([] : List (V × Nat)) start endB fuel).2.2 = start := by
  cases fuel with
  | zero => exact ⟨rfl, rfl⟩
  | succ f => exact ⟨rfl, rfl⟩

theorem newRun_const {V : Type} (v : V) (c start : Nat) (run : List (V × Nat))
    (hrun : ∀ p ∈ run, p.2 = c) (hsc : start ≤ c) :
    ∀ p ∈ (if 1 ≤ c - start then ((v, c) :: run).map (fun p => (p.1, c - (c - start)))
      else (v, c) :: run), p.2 = start := by
  by_cases hdiff : 1 ≤ c - start
  · rw [if_pos hdiff]
    intro p hp
    obtain ⟨q, -, rfl⟩ := List.mem_map.1 hp
    show c - (c - start) = start
    omega
  · rw [if_neg hdiff]
    intro p hp
    have hcs : c = start := by omega
    rcases List.mem_cons.1 hp with rfl | hp
    · exact hcs
    · rw [hrun p hp]
      exact hcs

theorem alignGo_spec {V : Type} :
    ∀ (fuel : Nat) (w : DW) (cols : List (V × Nat)) (start : Nat) (endB : Option Nat),
      ColsSorted cols →
      ColsSorted (alignGo w cols start endB fuel).2.1 ∧
        (∀ p ∈ (alignGo w cols start endB fuel).2.1,
          min start (sndAt cols 0) ≤ p.2) ∧
        (cols.length ≤ fuel →
          (∀ p ∈ (alignGo w cols start endB fuel).2.1,
            p.2 < (alignGo w cols start endB fuel).2.2) ∧
          start ≤ (alignGo w cols start endB fuel).2.2) := by
  intro fuel
  induction fuel with
  | zero =>
    intro w cols start endB hs
    simp only [alignGo]
    refine ⟨hs, fun p hp => ?_, fun hlen => ⟨fun p hp => ?_, le_refl _⟩⟩
    · cases cols with
      | nil => cases hp
      | cons x t =>
        have hx : sndAt (x :: t) 0 = x.2 := by simp [sndAt]
        rw [hx]
        exact le_trans (Nat.min_le_right _ _) (sorted_head_least x t hs p hp)
    · cases cols with
      | nil => cases hp
      | cons x t => simp at hlen
  | succ f ih =>
    intro w cols start endB hs
    cases cols with
    | nil =>
      obtain ⟨h1, h2⟩ := alignGo_nil (V := V) (f + 1) w start endB
      rw [h1, h2]
      exact ⟨List.Pairwise.nil, fun p hp => (List.not_mem_nil p hp).elim,
        fun _ => ⟨fun p hp => (List.not_mem_nil p hp).elim, le_refl _⟩⟩
    | cons hd rest =>
      obtain ⟨v, c⟩ := hd
      have hhd : ∀ p ∈ rest, c ≤ p.2 := fun p hp => (List.pairwise_cons.1 hs).1 p hp
      have hrest : ColsSorted rest := (List.pairwise_cons.1 hs).2
      have hrun : ∀ q ∈ rest.takeWhile (fun p => p.2 = c), q.2 = c := by
        intro q hq
        have h2 := List.mem_takeWhile_imp hq
        simpa using h2
      have hrest' : ColsSorted (rest.dropWhile (fun p => p.2 = c)) :=
        hrest.sublist (List.dropWhile_sublist _)
      have hsub' : ∀ q ∈ rest.dropWhile (fun p => p.2 = c), q ∈ rest := fun q hq =>
        (List.dropWhile_sublist _).subset hq
      have hlen' : (rest.dropWhile (fun p => p.2 = c)).length ≤ rest.length :=
        (List.dropWhile_sublist _).length_le
      have hsnd0 : sndAt ((v, c) :: rest) 0 = c := by simp [sndAt]
      simp only [alignGo]
      try dsimp only
      by_cases hsc : start ≤ c
      · rw [if_pos hsc]
        try dsimp only
        have hNR := newRun_const v c start (rest.takeWhile (fun p => p.2 = c)) hrun hsc
        obtain ⟨ihS, ihLB, ihUB⟩ := ih (w.writeBranch (Branch.shift_left (c - start)))
          (rest.dropWhile (fun p => p.2 = c)) (c + 1) endB hrest'
        have hR'bound : ∀ b ∈ (alignGo (w.writeBranch (Branch.shift_left (c - start)))
            (rest.dropWhile (fun p => p.2 = c)) (c + 1) endB f).2.1, c + 1 ≤ b.2 := by
          intro b hb
          cases hR'e : rest.dropWhile (fun p => p.2 = c) with
          | nil =>
            rw [hR'e, (alignGo_nil f _ _ _).1] at hb
            cases hb
          | cons q t1 =>
            have hq : q ∈ rest := hsub' q (by rw [hR'e]; exact List.mem_cons_self q t1)
            have hqc : ¬(q.2 = c) := by
              have hfalse := dropWhile_head_not (fun p => p.2 = c) rest q t1 hR'e
              exact of_decide_eq_false hfalse
            have hqge : c ≤ q.2 := hhd q hq
            have hsndq : sndAt (rest.dropWhile (fun p => p.2 = c)) 0 = q.2 := by
              rw [hR'e]
              simp [sndAt]
            have hb' := ihLB b hb
            rw [hsndq] at hb'
            omega
        refine ⟨?_, ?_, ?_⟩
        · refine List.pairwise_append.2 ⟨colsSorted_of_const _ start hNR, ihS, ?_⟩
          intro a ha b hb
          have ha' := hNR a ha
          have hb' := hR'bound b hb
          omega
        · intro p hp
          rw [hsnd0]
          rcases List.mem_append.1 hp with hpA | hpB
          · have := hNR p hpA
            omega
          · have := hR'bound p hpB
            omega
        · intro hlen
          simp only [List.length_cons] at hlen
          have hlf : (rest.dropWhile (fun p => p.2 = c)).length ≤ f := by omega
          obtain ⟨ihU1, ihU2⟩ := ihUB hlf
          refine ⟨?_, by omega⟩
          intro p hp
          rcases List.mem_append.1 hp with hpA | hpB
          · have := hNR p hpA
            omega
          · exact ihU1 p hpB
      · rw [if_neg hsc]
        try dsimp only
        cases hR'e : rest.dropWhile (fun p => p.2 = c) with
        | nil =>
          rw [hR'e] at hrest' hsub' hlen'
          cases endB with
          | some e =>
            try dsimp only
            obtain ⟨hnil1, hnil2⟩ := alignGo_nil (V := V) f
              (w.writeBranch (Branch.shift_right (min (start - c) (e - (c + 1)))))
              (max (if min (start - c) (e - (c + 1)) < start - c then start + 1 else start)
                (c + min (start - c) (e - (c + 1)) + 1)) (some e)
            rw [hnil1, hnil2, List.append_nil]
            have hones : start ≤ (if min (start - c) (e - (c + 1)) < start - c
                then start + 1 else start) := by
              split <;> omega
            have hNC := mem_recol ((v, c) :: rest.takeWhile (fun p => p.2 = c))
              (c + min (start - c) (e - (c + 1)))
            refine ⟨colsSorted_of_const _ _ hNC, fun p hp => ?_, fun hlen => ⟨fun p hp => ?_, ?_⟩⟩
            · rw [hsnd0]
              have := hNC p hp
              omega
            · have := hNC p hp
              omega
            · omega
          | none =>
            try dsimp only
            obtain ⟨hnil1, hnil2⟩ := alignGo_nil (V := V) f
              (w.writeBranch (Branch.shift_right (start - c)))
              (max (if start - c < start - c then start + 1 else start)
                (c + (start - c) + 1)) none
            rw [hnil1, hnil2, List.append_nil]
            have hNC := mem_recol ((v, c) :: rest.takeWhile (fun p => p.2 = c))
              (c + (start - c))
            refine ⟨colsSorted_of_const _ _ hNC, fun p hp => ?_, fun hlen => ⟨fun p hp => ?_, ?_⟩⟩
            · rw [hsnd0]
              have := hNC p hp
              omega
            · have := hNC p hp
              have : ¬(start - c < start - c) := lt_irrefl _
              rw [if_neg this]
              omega
            · have : ¬(start - c < start - c) := lt_irrefl _
              rw [if_neg this]
              omega
        | cons q t1 =>
          obtain ⟨v1, c1⟩ := q
          try dsimp only
          rw [hR'e] at hrest' hsub' hlen'
          have hq : (v1, c1) ∈ rest := hsub' _ (List.mem_cons_self _ _)
          have hqc : ¬(c1 = c) := by
            have hfalse := dropWhile_head_not (fun p => p.2 = c) rest (v1, c1) t1 hR'e
            exact of_decide_eq_false hfalse
          have hqge : c ≤ c1 := hhd _ hq
          have hones : start ≤ (if min (start - c) (c1 - c - 1) < start - c
              then start + 1 else start) := by
            split <;> omega
          obtain ⟨ihS, ihLB, ihUB⟩ := ih
            (w.writeBranch (Branch.shift_right (min (start - c) (c1 - c - 1))))
            ((v1, c1) :: t1)
            (max (if min (start - c) (c1 - c - 1) < start - c then start + 1 else start)
              (c + min (start - c) (c1 - c - 1) + 1)) endB hrest'
          have hNC := mem_recol ((v, c) :: rest.takeWhile (fun p => p.2 = c))
            (c + min (start - c) (c1 - c - 1))
          have hLB' : ∀ b ∈ (alignGo
              (w.writeBranch (Branch.shift_right (min (start - c) (c1 - c - 1))))
              ((v1, c1) :: t1)
              (max (if min (start - c) (c1 - c - 1) < start - c then start + 1 else start)
                (c + min (start - c) (c1 - c - 1) + 1)) endB f).2.1,
              c + min (start - c) (c1 - c - 1) + 1 ≤ b.2 := by
            intro b hb
            have hb' := ihLB b hb
            have hsndq : sndAt ((v1, c1) :: t1) 0 = c1 := by simp [sndAt]
            rw [hsndq] at hb'
            omega
          refine ⟨?_, ?_, ?_⟩
          · refine List.pairwise_append.2 ⟨colsSorted_of_const _ _ hNC, ihS, ?_⟩
            intro a ha b hb
            have ha' := hNC a ha
            have hb' := hLB' b hb
            omega
          · intro p hp
            rw [hsnd0]
            rcases List.mem_append.1 hp with hpA | hpB
            · have := hNC p hpA
              omega
            · have := hLB' p hpB
              omega
          · intro hlen
            simp only [List.length_cons] at hlen
            have hlf : ((v1, c1) :: t1).length ≤ f := by
              simp only [List.length_cons] at hlen' ⊢
              omega
            obtain ⟨ihU1, ihU2⟩ := ihUB hlf
            refine ⟨?_, by omega⟩
            intro p hp
            rcases List.mem_append.1 hp with hpA | hpB
            · have := hNC p hpA
              omega
            · exact ihU1 p hpB

theorem align_sorted {V : Type} (w : DW) (cols : List (V × Nat)) (start : Nat)
    (endB : Option Nat) (hs : ColsSorted cols) :
    ColsSorted (align w cols start endB).2.1 :=
  (alignGo_spec cols.length w cols start endB hs).1

theorem align_lb {V : Type} (w : DW) (cols : List (V × Nat)) (start : Nat)
    (endB : Option Nat) (hs : ColsSorted cols) :
    ∀ p ∈ (align w cols start endB).2.1, min start (sndAt cols 0) ≤ p.2 :=
  (alignGo_spec cols.length w cols start endB hs).2.1

theorem align_ub {V : Type} (w : DW) (cols : List (V × Nat)) (start : Nat)
    (endB : Option Nat) (hs : ColsSorted cols) :
    (∀ p ∈ (align w cols start endB).2.1, p.2 < (align w cols start endB).2.2) ∧
      start ≤ (align w cols start endB).2.2 :=
  (alignGo_spec cols.length w cols start endB hs).2.2 (le_refl _)

theorem align_nil {V : Type} (w : DW) (start : Nat) (endB : Option Nat) :
    (align w ([] : List (V × Nat)) start endB).2.1 = [] ∧
      (align w ([] : List (V × Nat)) start endB).2.2 = start :=
  alignGo_nil 0 w start endB

theorem alignGo_compact {V : Type} :
    ∀ (fuel : Nat) (w : DW) (cols : List (V × Nat)) (start : Nat) (endB : Option Nat)
      (M : Nat), ColsSorted cols → cols.length ≤ fuel → (∀ p ∈ cols, p.2 ≤ M) →
      start ≤ sndAt cols 0 → cols ≠ [] →
      (alignGo w cols start endB fuel).2.2 ≤ M + 1 := by
  intro fuel
  induction fuel with
  | zero =>
    intro w cols start endB M hs hlen hM h0 hne
    cases cols with
    | nil => exact absurd rfl hne
    | cons x t => simp at hlen
  | succ f ih =>
    intro w cols start endB M hs hlen hM h0 hne
    cases cols with
    | nil => exact absurd rfl hne
    | cons hd rest =>
      obtain ⟨v, c⟩ := hd
      have hsnd0 : sndAt ((v, c) :: rest) 0 = c := by simp [sndAt]
      rw [hsnd0] at h0
      have hhd : ∀ p ∈ rest, c ≤ p.2 := fun p hp => (List.pairwise_cons.1 hs).1 p hp
      have hrest : ColsSorted rest := (List.pairwise_cons.1 hs).2
      have hrest' : ColsSorted (rest.dropWhile (fun p => p.2 = c)) :=
        hrest.sublist (List.dropWhile_sublist _)
      have hsub' : ∀ q ∈ rest.dropWhile (fun p => p.2 = c), q ∈ rest := fun q hq =>
        (List.dropWhile_sublist _).subset hq
      have hlen' : (rest.dropWhile (fun p => p.2 = c)).length ≤ rest.length :=
        (List.dropWhile_sublist _).length_le
      simp only [alignGo]
      try dsimp only
      rw [if_pos h0]
      try dsimp only
      cases hR'e : rest.dropWhile (fun p => p.2 = c) with
      | nil =>
        rw [(alignGo_nil f _ _ _).2]
        have := hM (v, c) (List.mem_cons_self _ _)
        omega
      | cons q t1 =>
        rw [hR'e] at hrest'
        have hq : q ∈ rest := hsub' q (by rw [hR'e]; exact List.mem_cons_self q t1)
        have hqc : ¬(q.2 = c) := by
          have hfalse := dropWhile_head_not (fun p => p.2 = c) rest q t1 hR'e
          exact of_decide_eq_false hfalse
        have hqge : c ≤ q.2 := hhd q hq
        refine ih _ _ (c + 1) endB M hrest' ?_ ?_ ?_ (List.cons_ne_nil q t1)
        · simp only [List.length_cons] at hlen
          rw [hR'e] at hlen'
          simp only [List.length_cons] at hlen' ⊢
          omega
        · intro p hp
          refine hM p (List.mem_cons_of_mem _ (hsub' p ?_))
          rw [hR'e]
          exact hp
        · have hsndq : sndAt (q :: t1) 0 = q.2 := by simp [sndAt]
          rw [hsndq]
          omega

theorem align_compact {V : Type} (w : DW) (cols : List (V × Nat)) (start : Nat)
    (endB : Option Nat) (M : Nat) (hs : ColsSorted cols) (hM : ∀ p ∈ cols, p.2 ≤ M)
    (h0 : start ≤ sndAt cols 0) (hne : cols ≠ []) :
    (align w cols start endB).2.2 ≤ M + 1 :=
  alignGo_compact cols.length w cols start endB M hs (le_refl _) hM h0 hne

theorem sorted_colsBumpTail {V : Type} (cols : List (V × Nat)) (C : Nat)
    (hblk : ∀ p ∈ cols, p.2 = C) : ColsSorted (colsBumpTail cols) := by
  cases cols with
  | nil => exact List.Pairwise.nil
  | cons x rest =>
    show ColsSorted (x :: rest.map (fun p => (p.1, p.2 + 1)))
    refine List.pairwise_cons.2 ⟨?_, ?_⟩
    · intro y hy
      obtain ⟨q, hq, rfl⟩ := List.mem_map.1 hy
      have h1 := hblk x (List.mem_cons_self _ _)
      have h2 := hblk q (List.mem_cons_of_mem _ hq)
      show x.2 ≤ q.2 + 1
      omega
    · refine colsSorted_of_const _ (C + 1) ?_
      intro p hp
      obtain ⟨q, hq, rfl⟩ := List.mem_map.1 hp
      have := hblk q (List.mem_cons_of_mem _ hq)
      show q.2 + 1 = C + 1
      omega

theorem mem_colsBumpTail {V : Type} (cols : List (V × Nat)) (C : Nat)
    (hblk : ∀ p ∈ cols, p.2 = C) :
    ∀ p ∈ colsBumpTail cols, C ≤ p.2 ∧ p.2 ≤ C + 1 := by
  cases cols with
  | nil => intro p hp; cases hp
  | cons x rest =>
    intro p hp
    simp only [colsBumpTail] at hp
    rcases List.mem_cons.1 hp with rfl | hp
    · have := hblk p (List.mem_cons_self _ _)
      omega
    · obtain ⟨q, hq, rfl⟩ := List.mem_map.1 hp
      have := hblk q (List.mem_cons_of_mem _ hq)
      show C ≤ q.2 + 1 ∧ q.2 + 1 ≤ C + 1
      omega

theorem sorted_colsBumpAll {V : Type} (cols : List (V × Nat)) (C : Nat)
    (hblk : ∀ p ∈ cols, p.2 = C) : ColsSorted (colsBumpAll cols) := by
  refine colsSorted_of_const _ (C + 1) ?_
  intro p hp
  obtain ⟨q, hq, rfl⟩ := List.mem_map.1 hp
  have := hblk q hq
  show q.2 + 1 = C + 1
  omega

theorem mem_colsBumpAll {V : Type} (cols : List (V × Nat)) (C : Nat)
    (hblk : ∀ p ∈ cols, p.2 = C) :
    ∀ p ∈ colsBumpAll cols, C + 1 ≤ p.2 ∧ p.2 ≤ C + 1 := by
  intro p hp
  obtain ⟨q, hq, rfl⟩ := List.mem_map.1 hp
  have := hblk q hq
  show C + 1 ≤ q.2 + 1 ∧ q.2 + 1 ≤ C + 1
  omega

theorem sorted_colsSubAll {V : Type} (cols : List (V × Nat)) (C s : Nat)
    (hblk : ∀ p ∈ cols, p.2 = C) : ColsSorted (colsSubAll cols s) := by
  refine colsSorted_of_const _ (C - s) ?_
  intro p hp
  obtain ⟨q, hq, rfl⟩ := List.mem_map.1 hp
  have := hblk q hq
  show q.2 - s = C - s
  omega

theorem mem_colsSubAll {V : Type} (cols : List (V × Nat)) (C s : Nat)
    (hblk : ∀ p ∈ cols, p.2 = C) :
    ∀ p ∈ colsSubAll cols s, C - s ≤ p.2 ∧ p.2 ≤ C - s := by
  intro p hp
  obtain ⟨q, hq, rfl⟩ := List.mem_map.1 hp
  have := hblk q hq
  show C - s ≤ q.2 - s ∧ q.2 - s ≤ C - s
  omega

theorem sorted_colsForkLeftHead {V : Type} (cols : List (V × Nat)) (C s : Nat)
    (hblk : ∀ p ∈ cols, p.2 = C) : ColsSorted (colsForkLeftHead cols C s) := by
  cases cols with
  | nil => exact List.Pairwise.nil
  | cons x rest =>
    show ColsSorted ((x.1, C - s) :: rest.map (fun p => (p.1, p.2 + 1 - s)))
    refine List.pairwise_cons.2 ⟨?_, ?_⟩
    · intro y hy
      obtain ⟨q, hq, rfl⟩ := List.mem_map.1 hy
      have := hblk q (List.mem_cons_of_mem _ hq)
      show C - s ≤ q.2 + 1 - s
      omega
    · refine colsSorted_of_const _ (C + 1 - s) ?_
      intro p hp
      obtain ⟨q, hq, rfl⟩ := List.mem_map.1 hp
      have := hblk q (List.mem_cons_of_mem _ hq)
      show q.2 + 1 - s = C + 1 - s
      omega

theorem mem_colsForkLeftHead {V : Type} (cols : List (V × Nat)) (C s : Nat)
    (hblk : ∀ p ∈ cols, p.2 = C) :
    ∀ p ∈ colsForkLeftHead cols C s, C - s ≤ p.2 ∧ p.2 ≤ C + 1 - s := by
  cases cols with
  | nil => intro p hp; cases hp
  | cons x rest =>
    intro p hp
    simp only [colsForkLeftHead] at hp
    rcases List.mem_cons.1 hp with rfl | hp
    · constructor
      · exact le_refl _
      · show C - s ≤ C + 1 - s
        omega
    · obtain ⟨q, hq, rfl⟩ := List.mem_map.1 hp
      have := hblk q (List.mem_cons_of_mem _ hq)
      show C - s ≤ q.2 + 1 - s ∧ q.2 + 1 - s ≤ C + 1 - s
      omega

theorem sorted_colsForkLeftLast {V : Type} (cols : List (V × Nat)) (C m s : Nat)
    (hblk : ∀ p ∈ cols, p.2 = C) (hs1 : 1 ≤ s) :
    ColsSorted (colsForkLeftLast cols m s) := by
  have htk : ∀ p ∈ (cols.take m).map (fun p => (p.1, p.2 - s)), p.2 = C - s := by
    intro p hp
    obtain ⟨q, hq, rfl⟩ := List.mem_map.1 hp
    have := hblk q ((List.take_sublist m cols).subset hq)
    show q.2 - s = C - s
    omega
  unfold colsForkLeftLast
  cases hdm : cols.drop m with
  | nil =>
    exact List.pairwise_append.2 ⟨colsSorted_of_const _ (C - s) htk,
      List.Pairwise.nil, fun a ha b hb => (List.not_mem_nil b hb).elim⟩
  | cons x r =>
    have hx : x.2 = C := hblk x ((List.drop_sublist m cols).subset
      (by rw [hdm]; exact List.mem_cons_self x r))
    have hr : ∀ q ∈ r, q.2 = C := fun q hq => hblk q ((List.drop_sublist m cols).subset
      (by rw [hdm]; exact List.mem_cons_of_mem x hq))
    refine List.pairwise_append.2 ⟨colsSorted_of_const _ (C - s) htk, ?_, ?_⟩
    · refine List.pairwise_cons.2 ⟨?_, colsSorted_of_const _ C hr⟩
      intro y hy
      have := hr y hy
      show x.2 + 1 - s ≤ y.2
      omega
    · intro a ha b hb
      have ha' := htk a ha
      rcases List.mem_cons.1 hb with rfl | hb
      · show a.2 ≤ x.2 + 1 - s
        omega
      · have := hr b hb
        omega

theorem mem_colsForkLeftLast {V : Type} (cols : List (V × Nat)) (C m s : Nat)
    (hblk : ∀ p ∈ cols, p.2 = C) (hs1 : 1 ≤ s) :
    ∀ p ∈ colsForkLeftLast cols m s, C - s ≤ p.2 ∧ p.2 ≤ C := by
  intro p hp
  unfold colsForkLeftLast at hp
  rcases List.mem_append.1 hp with hp | hp
  · obtain ⟨q, hq, rfl⟩ := List.mem_map.1 hp
    have := hblk q ((List.take_sublist m cols).subset hq)
    show C - s ≤ q.2 - s ∧ q.2 - s ≤ C
    omega
  · cases hdm : cols.drop m with
    | nil =>
      rw [hdm] at hp
      cases hp
    | cons x r =>
      rw [hdm] at hp
      have hx : x.2 = C := hblk x ((List.drop_sublist m cols).subset
        (by rw [hdm]; exact List.mem_cons_self x r))
      rcases List.mem_cons.1 hp with rfl | hp
      · show C - s ≤ x.2 + 1 - s ∧ x.2 + 1 - s ≤ C
        omega
      · have := hblk p ((List.drop_sublist m cols).subset
          (by rw [hdm]; exact List.mem_cons_of_mem x hp))
        omega

theorem sorted_colsForkInterior {V : Type} (cols : List (V × Nat)) (C m s : Nat)
    (hblk : ∀ p ∈ cols, p.2 = C) : ColsSorted (colsForkInterior cols m C s) := by
  have htk : ∀ p ∈ (cols.take m).map (fun p => (p.1, p.2 - s)), p.2 = C - s := by
    intro p hp
    obtain ⟨q, hq, rfl⟩ := List.mem_map.1 hp
    have := hblk q ((List.take_sublist m cols).subset hq)
    show q.2 - s = C - s
    omega
  unfold colsForkInterior
  cases hdm : cols.drop m with
  | nil =>
    exact List.pairwise_append.2 ⟨colsSorted_of_const _ (C - s) htk,
      List.Pairwise.nil, fun a ha b hb => (List.not_mem_nil b hb).elim⟩
  | cons x r =>
    have hr : ∀ q ∈ r.map (fun p => (p.1, p.2 - s + 2)), q.2 = C - s + 2 := by
      intro q hq
      obtain ⟨q', hq', rfl⟩ := List.mem_map.1 hq
      have := hblk q' ((List.drop_sublist m cols).subset
        (by rw [hdm]; exact List.mem_cons_of_mem x hq'))
      show q'.2 - s + 2 = C - s + 2
      omega
    refine List.pairwise_append.2 ⟨colsSorted_of_const _ (C - s) htk, ?_, ?_⟩
    · refine List.pairwise_cons.2 ⟨?_, colsSorted_of_const _ (C - s + 2) hr⟩
      intro y hy
      have := hr y hy
      show C - s + 1 ≤ y.2
      omega
    · intro a ha b hb
      have ha' := htk a ha
      rcases List.mem_cons.1 hb with rfl | hb
      · show a.2 ≤ C - s + 1
        omega
      · have := hr b hb
        omega

theorem mem_colsForkInterior {V : Type} (cols : List (V × Nat)) (C m s : Nat)
    (hblk : ∀ p ∈ cols, p.2 = C) :
    ∀ p ∈ colsForkInterior cols m C s, C - s ≤ p.2 ∧ p.2 ≤ C - s + 2 := by
  intro p hp
  unfold colsForkInterior at hp
  rcases List.mem_append.1 hp with hp | hp
  · obtain ⟨q, hq, rfl⟩ := List.mem_map.1 hp
    have := hblk q ((List.take_sublist m cols).subset hq)
    show C - s ≤ q.2 - s ∧ q.2 - s ≤ C - s + 2
    omega
  · cases hdm : cols.drop m with
    | nil =>
      rw [hdm] at hp
      cases hp
    | cons x r =>
      rw [hdm] at hp
      rcases List.mem_cons.1 hp with rfl | hp
      · show C - s ≤ C - s + 1 ∧ C - s + 1 ≤ C - s + 2
        omega
      · obtain ⟨q, hq, rfl⟩ := List.mem_map.1 hp
        show C - s ≤ q.2 - s + 2 ∧ q.2 - s + 2 ≤ C - s + 2
        have := hblk q ((List.drop_sublist m cols).subset
          (by rw [hdm]; exact List.mem_cons_of_mem x hq))
        omega

theorem sorted_setCol_up {V : Type} (cols : List (V × Nat)) (C m : Nat)
    (hblk : ∀ p ∈ cols, p.2 = C) (hml : m + 1 = cols.length) :
    ColsSorted (setCol cols m (C + 1)) := by
  have htk : ∀ p ∈ cols.take m, p.2 = C := fun p hp =>
    hblk p ((List.take_sublist m cols).subset hp)
  unfold setCol
  cases hdm : cols.drop m with
  | nil =>
    exact List.pairwise_append.2 ⟨colsSorted_of_const _ C htk,
      List.Pairwise.nil, fun a ha b hb => (List.not_mem_nil b hb).elim⟩
  | cons x r =>
    have hrlen : r.length = 0 := by
      have hl := congrArg List.length hdm
      simp only [List.length_drop, List.length_cons] at hl
      omega
    have hr : r = [] := List.length_eq_zero.1 hrlen
    subst hr
    refine List.pairwise_append.2 ⟨colsSorted_of_const _ C htk, ?_, ?_⟩
    · exact List.pairwise_cons.2 ⟨fun y hy => (List.not_mem_nil y hy).elim,
        List.Pairwise.nil⟩
    · intro a ha b hb
      have ha' := htk a ha
      rcases List.mem_cons.1 hb with rfl | hb
      · show a.2 ≤ C + 1
        omega
      · cases hb

theorem mem_setCol_up {V : Type} (cols : List (V × Nat)) (C m : Nat)
    (hblk : ∀ p ∈ cols, p.2 = C) :
    ∀ p ∈ setCol cols m (C + 1), C ≤ p.2 ∧ p.2 ≤ C + 1 := by
  intro p hp
  unfold setCol at hp
  rcases List.mem_append.1 hp with hp | hp
  · have := hblk p ((List.take_sublist m cols).subset hp)
    omega
  · cases hdm : cols.drop m with
    | nil =>
      rw [hdm] at hp
      cases hp
    | cons x r =>
      rw [hdm] at hp
      rcases List.mem_cons.1 hp with rfl | hp
      · show C ≤ C + 1 ∧ C + 1 ≤ C + 1
        omega
      · have := hblk p ((List.drop_sublist m cols).subset
          (by rw [hdm]; exact List.mem_cons_of_mem x hp))
        omega

set_option maxHeartbeats 1600000 in
theorem forkExact_spec {V : Type} (w : DW) (cols : List (V × Nat)) (minIndex start : Nat)
    (endB : Option Nat) (FORK : Bool) (hm : minIndex < cols.length)
    (hblk : ∀ p ∈ cols, p.2 = sndAt cols minIndex)
    (hst : start ≤ sndAt cols minIndex) :
    ColsSorted (forkExact w cols minIndex start endB FORK).2.1 ∧
      (∀ p ∈ (forkExact w cols minIndex start endB FORK).2.1,
        start ≤ p.2 ∧ p.2 < (forkExact w cols minIndex start endB FORK).2.2) ∧
      start < (forkExact w cols minIndex start endB FORK).2.2 ∧
      (∀ bd, endB = some bd → sndAt cols minIndex < bd →
        ∀ p ∈ (forkExact w cols minIndex start endB FORK).2.1, p.2 < bd) := by
  unfold forkExact
  repeat' first | split | dsimp only
  all_goals refine ⟨?_, fun p hp => ?_, by omega, fun bd hbd hlt p hp => ?_⟩
  all_goals try exact Option.noConfusion hbd
  all_goals try (injection hbd with hbdE; subst hbdE)
  all_goals try simp only [decide_eq_true_eq] at *
  all_goals
    first
      | exact colsSorted_of_const _ (sndAt cols minIndex) hblk
      | exact sorted_colsBumpTail cols (sndAt cols minIndex) hblk
      | exact sorted_colsBumpAll cols (sndAt cols minIndex) hblk
      | exact sorted_colsSubAll cols (sndAt cols minIndex) _ hblk
      | exact sorted_colsForkLeftHead cols (sndAt cols minIndex) _ hblk
      | exact sorted_colsForkLeftLast cols (sndAt cols minIndex) minIndex _ hblk (by omega)
      | exact sorted_colsForkInterior cols (sndAt cols minIndex) minIndex _ hblk
      | exact sorted_setCol_up cols (sndAt cols minIndex) minIndex hblk (by omega)
      | (have hbb := hblk p hp; omega)
      | (have hbb := mem_colsBumpTail cols (sndAt cols minIndex) hblk p hp; omega)
      | (have hbb := mem_colsBumpAll cols (sndAt cols minIndex) hblk p hp; omega)
      | (have hbb := mem_colsSubAll cols (sndAt cols minIndex) _ hblk p hp; omega)
      | (have hbb := mem_colsForkLeftHead cols (sndAt cols minIndex) _ hblk p hp; omega)
      | (have hbb := mem_colsForkLeftLast cols (sndAt cols minIndex) minIndex _ hblk
          (by omega) p hp; omega)
      | (have hbb := mem_colsForkInterior cols (sndAt cols minIndex) minIndex _ hblk p hp
          ; omega)
      | (have hbb := mem_setCol_up cols (sndAt cols minIndex) minIndex hblk p hp; omega)

theorem crStart_all {V : Type} (cols : List (V × Nat)) (c : Nat) :
    ∀ (i j : Nat), crStart cols c i ≤ j → j < i → cols[j]?.map Prod.snd = some c := by
  intro i
  induction i with
  | zero => intro j h1 h2; omega
  | succ n ih =>
    intro j h1 h2
    unfold crStart at h1
    by_cases hp : (cols[n]?.map Prod.snd) = some c
    · rw [if_pos hp] at h1
      by_cases hj : j = n
      · subst hj
        exact hp
      · exact ih j h1 (by omega)
    · rw [if_neg hp] at h1
      exact absurd h2 (by omega)

theorem crStart_prev {V : Type} (cols : List (V × Nat)) (c : Nat) :
    ∀ i, 0 < crStart cols c i →
      ¬(cols[crStart cols c i - 1]?.map Prod.snd = some c) := by
  intro i
  induction i with
  | zero => intro h; simp [crStart] at h
  | succ n ih =>
    unfold crStart
    by_cases hp : (cols[n]?.map Prod.snd) = some c
    · rw [if_pos hp]
      exact ih
    · rw [if_neg hp]
      intro h0
      simpa using hp

theorem crEnd_all {V : Type} (cols : List (V × Nat)) (c : Nat) :
    ∀ (f e j : Nat), e ≤ j → j < crEnd cols c f e → cols[j]?.map Prod.snd = some c := by
  intro f
  induction f with
  | zero =>
    intro e j h1 h2
    unfold crEnd at h2
    exact absurd h1 (by omega)
  | succ n ih =>
    intro e j h1 h2
    unfold crEnd at h2
    by_cases hp : (cols[e]?.map Prod.snd) = some c
    · rw [if_pos hp] at h2
      by_cases hj : j = e
      · subst hj
        exact hp
      · exact ih (e + 1) j (by omega) h2
    · rw [if_neg hp] at h2
      exact absurd h1 (by omega)

theorem crEnd_le_len {V : Type} (cols : List (V × Nat)) (c : Nat) :
    ∀ (f e : Nat), e ≤ cols.length → crEnd cols c f e ≤ cols.length := by
  intro f
  induction f with
  | zero =>
    intro e h
    unfold crEnd
    exact h
  | succ n ih =>
    intro e h
    unfold crEnd
    by_cases hp : (cols[e]?.map Prod.snd) = some c
    · rw [if_pos hp]
      refine ih (e + 1) ?_
      have he : e < cols.length := by
        by_contra hge
        rw [List.getElem?_eq_none (by omega)] at hp
        simp at hp
      omega
    · rw [if_neg hp]
      exact h

theorem crEnd_stop {V : Type} (cols : List (V × Nat)) (c : Nat) :
    ∀ (f e : Nat), cols.length ≤ f + e →
      ¬(cols[crEnd cols c f e]?.map Prod.snd = some c) := by
  intro f
  induction f with
  | zero =>
    intro e hle
    unfold crEnd
    rw [List.getElem?_eq_none (by omega)]
    simp
  | succ n ih =>
    intro e hle
    unfold crEnd
    by_cases hp : (cols[e]?.map Prod.snd) = some c
    · rw [if_pos hp]
      exact ih (e + 1) (by omega)
    · rw [if_neg hp]
      exact hp

set_option maxHeartbeats 1000000 in
theorem forkAlign_sorted {V : Type} (w : DW) (cols : List (V × Nat))
    (minIndex start : Nat) (endB : Option Nat) (FORK : Bool)
    (hs : ColsSorted cols) (hm : minIndex < cols.length)
    (hstart : start ≤ sndAt cols 0) :
    ColsSorted (forkAlign w cols minIndex start endB FORK).2.1 := by
  unfold forkAlign columnRange
  dsimp only
  set C := sndAt cols minIndex with hC
  set L := crStart cols C minIndex with hL
  set R := crEnd cols C cols.length (minIndex + 1) with hR
  have hLm : L ≤ minIndex := crStart_le cols C minIndex
  have hmR : minIndex + 1 ≤ R := crEnd_ge cols C _ _
  have hRlen : R ≤ cols.length := crEnd_le_len cols C _ _ (by omega)
  have hColIdx : cols[minIndex]?.map Prod.snd = some C := by
    have hg := List.getElem?_eq_getElem hm
    rw [hg, hC]
    unfold sndAt
    rw [hg]
    simp
  have hCm : (cols[minIndex]).2 = C := by
    have := hColIdx
    rw [List.getElem?_eq_getElem hm] at this
    simpa using this
  have hblock : ∀ j, L ≤ j → j < R → cols[j]?.map Prod.snd = some C := by
    intro j h1 h2
    by_cases hj1 : j < minIndex
    · rw [hL] at h1
      exact crStart_all cols C minIndex j h1 hj1
    · by_cases hj2 : j = minIndex
      · subst hj2
        exact hColIdx
      · rw [hR] at h2
        exact crEnd_all cols C cols.length (minIndex + 1) j (by omega) h2
  by_cases hsing : L + 1 = R
  · rw [if_pos hsing]
    exact align_sorted _ _ _ _ hs
  · rw [if_neg hsing]
    dsimp only
    have hsP : ColsSorted (cols.take L) := hs.sublist (List.take_sublist _ _)
    have hsM : ColsSorted ((cols.drop L).take (R - L)) :=
      (hs.sublist (List.drop_sublist _ _)).sublist (List.take_sublist _ _)
    have hsS : ColsSorted (cols.drop R) := hs.sublist (List.drop_sublist _ _)
    have hmidlen : minIndex - L < ((cols.drop L).take (R - L)).length := by
      simp only [List.length_take, List.length_drop]
      omega
    have hmidget : ∀ (j : Nat) (p : V × Nat),
        ((cols.drop L).take (R - L))[j]? = some p → j < R - L ∧ cols[L + j]? = some p := by
      intro j p hj
      have hjlt : j < R - L := by
        obtain ⟨hlen, -⟩ := List.getElem?_eq_some_iff.1 hj
        simp only [List.length_take, List.length_drop] at hlen
        omega
      rw [List.getElem?_take, if_pos hjlt, List.getElem?_drop] at hj
      exact ⟨hjlt, hj⟩
    have hmidmem : ∀ p ∈ (cols.drop L).take (R - L), p.2 = C := by
      intro p hp
      obtain ⟨j, hj⟩ := List.mem_iff_getElem?.1 hp
      obtain ⟨hjlt, hpj⟩ := hmidget j p hj
      have h3 := hblock (L + j) (by omega) (by omega)
      rw [hpj] at h3
      simpa using h3
    have hmidsnd : sndAt ((cols.drop L).take (R - L)) (minIndex - L) = C := by
      rcases hq : ((cols.drop L).take (R - L))[minIndex - L]? with _ | q
      · rw [List.getElem?_eq_none_iff] at hq
        omega
      · have hqm : q ∈ (cols.drop L).take (R - L) := by
          obtain ⟨hlen, hvl⟩ := List.getElem?_eq_some_iff.1 hq
          rw [← hvl]
          exact List.getElem_mem hlen
        unfold sndAt
        rw [hq]
        exact hmidmem q hqm
    have hblk2 : ∀ p ∈ (cols.drop L).take (R - L),
        p.2 = sndAt ((cols.drop L).take (R - L)) (minIndex - L) := by
      intro p hp
      rw [hmidsnd]
      exact hmidmem p hp
    have hpre : ∀ p ∈ cols.take L, p.2 < C := by
      intro p hp
      obtain ⟨j, hj⟩ := List.mem_iff_getElem?.1 hp
      have hjL : j < L := by
        obtain ⟨hlen, -⟩ := List.getElem?_eq_some_iff.1 hj
        simp only [List.length_take] at hlen
        omega
      rw [List.getElem?_take, if_pos hjL] at hj
      have hL1 : L - 1 < cols.length := by omega
      have hprevne := crStart_prev cols C minIndex (by rw [← hL]; omega)
      rw [← hL] at hprevne
      have hne1 : ¬((cols[L - 1]).2 = C) := by
        intro he
        refine hprevne ?_
        rw [List.getElem?_eq_getElem hL1]
        simp [he]
      have hle1 : (cols[L - 1]).2 ≤ C := by
        have hpw := (List.pairwise_iff_getElem.1 hs) (L - 1) minIndex hL1 hm (by omega)
        rw [hCm] at hpw
        exact hpw
      obtain ⟨hjlen, hjv⟩ := List.getElem?_eq_some_iff.1 hj
      have hple : p.2 ≤ (cols[L - 1]).2 := by
        by_cases hje : j = L - 1
        · subst hje
          rw [← hjv]
        · have hpw := (List.pairwise_iff_getElem.1 hs) j (L - 1) hjlen hL1 (by omega)
          rw [hjv] at hpw
          exact hpw
      omega
    have hsuf : ∀ p ∈ cols.drop R, C < p.2 := by
      intro p hp
      obtain ⟨j, hj⟩ := List.mem_iff_getElem?.1 hp
      rw [List.getElem?_drop] at hj
      obtain ⟨hjlen, hjv⟩ := List.getElem?_eq_some_iff.1 hj
      have hRlt : R < cols.length := by omega
      have hstop := crEnd_stop cols C cols.length (minIndex + 1) (by omega)
      rw [← hR] at hstop
      have hRne : ¬((cols[R]).2 = C) := by
        intro he
        refine hstop ?_
        rw [List.getElem?_eq_getElem hRlt]
        simp [he]
      have hRge : C ≤ (cols[R]).2 := by
        have hpw := (List.pairwise_iff_getElem.1 hs) minIndex R hm hRlt (by omega)
        rw [hCm] at hpw
        exact hpw
      have hpge : (cols[R]).2 ≤ p.2 := by
        by_cases hj0 : j = 0
        · subst hj0
          rw [← hjv]
          exact le_refl _
        · have hpw := (List.pairwise_iff_getElem.1 hs) R (R + j) hRlt hjlen (by omega)
          rw [hjv] at hpw
          exact hpw
      omega
    set A1 := align w (cols.take L) start none with hA1
    have hub1 : ∀ p ∈ A1.2.1, p.2 < A1.2.2 :=
      (align_ub w (cols.take L) start none hsP).1
    have hs1 : ColsSorted A1.2.1 := align_sorted w (cols.take L) start none hsP
    have hfin_le : A1.2.2 ≤ C := by
      by_cases hP0 : cols.take L = []
      · have ha1f : A1.2.2 = start := by
          rw [hA1, hP0]
          exact (align_nil _ _ _).2
        have hL0 : L = 0 := by
          rcases List.take_eq_nil_iff.1 hP0 with h | h
          · exact h
          · rw [h] at hm
            simp at hm
        have h0C : sndAt cols 0 = C := by
          have hb0 := hblock 0 (by omega) (by omega)
          unfold sndAt
          rcases hg : cols[0]? with _ | q
          · rw [hg] at hb0
            cases hb0
          · rw [hg] at hb0
            simpa using hb0
        rw [ha1f]
        rw [h0C] at hstart
        exact hstart
      · have hL0 : 0 < L := by
          by_contra h0
          apply hP0
          have hz : L = 0 := by omega
          rw [hz]
          rfl
        obtain ⟨p0, hp0⟩ := List.exists_mem_of_ne_nil _ hP0
        have hC1 : 1 ≤ C := by
          have := hpre p0 hp0
          omega
        have hsndP : sndAt (cols.take L) 0 = sndAt cols 0 := by
          unfold sndAt
          rw [List.getElem?_take, if_pos hL0]
        refine le_trans (align_compact w (cols.take L) start none (C - 1) hsP ?_ ?_ hP0)
          (by omega)
        · intro p hp
          have := hpre p hp
          omega
        · rw [hsndP]
          exact hstart
    obtain ⟨hFs, hFb, hFoff, hFbd⟩ := forkExact_spec A1.1 ((cols.drop L).take (R - L))
      (minIndex - L) A1.2.2
      (match cols.drop R with | x :: _ => some x.2 | [] => endB) FORK
      hmidlen hblk2 (by rw [hmidsnd]; exact hfin_le)
    set A2 := forkExact A1.1 ((cols.drop L).take (R - L)) (minIndex - L) A1.2.2
      (match cols.drop R with | x :: _ => some x.2 | [] => endB) FORK with hA2
    set A3 := align A2.1 (cols.drop R) A2.2.2 endB with hA3
    have hs3 : ColsSorted A3.2.1 := align_sorted A2.1 (cols.drop R) A2.2.2 endB hsS
    have hlb3 : ∀ p ∈ A3.2.1, min A2.2.2 (sndAt (cols.drop R) 0) ≤ p.2 :=
      align_lb A2.1 (cols.drop R) A2.2.2 endB hsS
    refine List.pairwise_append.2 ⟨List.pairwise_append.2 ⟨hs1, hFs, ?_⟩, hs3, ?_⟩
    · intro a ha b hb
      have h1 := hub1 a ha
      have h2 := (hFb b hb).1
      omega
    · intro a ha b hb
      cases hdr : cols.drop R with
      | nil =>
        have h30 : A3.2.1 = [] := by
          rw [hA3, hdr]
          exact (align_nil _ _ _).1
        rw [h30] at hb
        cases hb
      | cons x t =>
        have hx2 : C < x.2 := hsuf x (by rw [hdr]; exact List.mem_cons_self x t)
        have hsndS : sndAt (cols.drop R) 0 = x.2 := by
          unfold sndAt
          rw [hdr]
          simp
        have hb' := hlb3 b hb
        rw [hsndS] at hb'
        rcases List.mem_append.1 ha with haA | haB
        · have h1 := hub1 a haA
          omega
        · have h1 := (hFb a haB).2
          have h2 : a.2 < x.2 := by
            refine hFbd x.2 ?_ (by omega) a haB
            rw [hdr]
          omega

theorem subst_sorted {V : Type} (cols : List (V × Nat)) (i : Nat) (vtx : V) (col : Nat)
    (children : List V) (hs : ColsSorted cols) (hget : cols[i]? = some (vtx, col)) :
    ColsSorted (cols.take i ++ children.map (fun c => (c, col)) ++ cols.drop (i + 1)) := by
  have hdecomp := list_take_cons_drop cols i (vtx, col) hget
  have hs' : ColsSorted (cols.take i ++ (vtx, col) :: cols.drop (i + 1)) := by
    rw [← hdecomp]
    exact hs
  obtain ⟨hsT, hsCD, hcross⟩ := List.pairwise_append.1 hs'
  obtain ⟨hD, hsD⟩ := List.pairwise_cons.1 hsCD
  have hmid : ∀ p ∈ children.map (fun c => (c, col)), p.2 = col := by
    intro p hp
    obtain ⟨q, -, rfl⟩ := List.mem_map.1 hp
    rfl
  refine List.pairwise_append.2
    ⟨List.pairwise_append.2 ⟨hsT, colsSorted_of_const _ col hmid, ?_⟩, hsD, ?_⟩
  · intro a ha b hb
    have h1 : a.2 ≤ col := hcross a ha (vtx, col) (List.mem_cons_self _ _)
    have h2 := hmid b hb
    omega
  · intro a ha b hb
    rcases List.mem_append.1 ha with haT | haM
    · exact hcross a haT b (List.mem_cons_of_mem _ hb)
    · have h2 := hmid a haM
      have h3 : col ≤ b.2 := hD b hb
      omega

/-- **C3.**  Frontier invariant: starting from a column list sorted
non-decreasing by column index, each frontier-mutating operation returns a
sorted list again: substituting a vertex by its children (all inserted at the
substituted column), `align` with any start offset and bound, `fork_exact`
called validly (on a single column block, with an in-range index and a start
offset not beyond the block's column), and `fork_align` called validly (an
in-range index and a start offset at most the first column). -/
theorem c3_frontier_sorted_preserved {V : Type} (w : DW) (cols : List (V × Nat))
    (FORK : Bool) (hs : ColsSorted cols) :
    (∀ (i : Nat) (vtx : V) (col : Nat) (children : List V),
      cols[i]? = some (vtx, col) →
      ColsSorted (cols.take i ++ children.map (fun c => (c, col)) ++
        cols.drop (i + 1))) ∧
      (∀ (start : Nat) (endB : Option Nat), ColsSorted (align w cols start endB).2.1) ∧
      (∀ (minIndex start : Nat) (endB : Option Nat), minIndex < cols.length →
        (∀ p ∈ cols, p.2 = sndAt cols minIndex) → start ≤ sndAt cols minIndex →
        ColsSorted (forkExact w cols minIndex start endB FORK).2.1) ∧
      (∀ (minIndex start : Nat) (endB : Option Nat), minIndex < cols.length →
        start ≤ sndAt cols 0 →
        ColsSorted (forkAlign w cols minIndex start endB FORK).2.1) :=
  ⟨fun i vtx col children hget => subst_sorted cols i vtx col children hs hget,
    fun start endB => align_sorted w cols start endB hs,
    fun minIndex start endB hm hblk hst =>
      (forkExact_spec w cols minIndex start endB FORK hm hblk hst).1,
    fun minIndex start endB hm hst =>
      forkAlign_sorted w cols minIndex start endB FORK hs hm hst⟩

/-- **C3, witness.**  On the sorted frontier `(3,1), (4,1), (6,1)` (a single
column block at column 1): substituting index 1 by two children, an `align`
row, a `fork_exact` row and a `fork_align` row each leave the columns
sorted. -/
theorem c3_frontier_sorted_preserved_witness :
    ColsSorted ([((3 : Nat), 1), (4, 1), (6, 1)].take 1 ++
        [9, 8].map (fun c => (c, 1)) ++ [((3 : Nat), 1), (4, 1), (6, 1)].drop 2) ∧
      ColsSorted (align DW.new [((3 : Nat), 1), (4, 1), (6, 1)] 0 none).2.1 ∧
      ColsSorted (forkExact DW.new [((3 : Nat), 1), (4, 1), (6, 1)] 1 0 (some 5) true).2.1 ∧
      ColsSorted (forkAlign DW.new [((3 : Nat), 1), (4, 1), (6, 1)] 1 0 (some 5) true).2.1 :=
  ⟨(c3_frontier_sorted_preserved DW.new [((3 : Nat), 1), (4, 1), (6, 1)] true
      (by decide)).1 1 4 1 [9, 8] (by decide),
   (c3_frontier_sorted_preserved DW.new [((3 : Nat), 1), (4, 1), (6, 1)] true
      (by decide)).2.1 0 none,
   (c3_frontier_sorted_preserved DW.new [((3 : Nat), 1), (4, 1), (6, 1)] true
      (by decide)).2.2.1 1 0 (some 5) (by decide) (by decide) (by decide),
   (c3_frontier_sorted_preserved DW.new [((3 : Nat), 1), (4, 1), (6, 1)] true
      (by decide)).2.2.2 1 0 (some 5) (by decide) (by decide)⟩

end Ramify
